import Mathlib

/-! utf8string: a shallow embedding of `src/src/utf8util.cpp`.

A `std::string` is a list of bytes, a `char32_t` codepoint and a `size_t`
index are natural numbers.  Every `while` loop of the source advances
`byte_pos` by at least one per iteration, so it runs at most `s.size()`
times; the loops are written by recursion on that iteration budget, and
`*_fuel_irrel` below shows that the budget is never the reason a loop stops.
No index goes beyond `s.size() + 3` and a decoded value stays below `2 ^ 21`
(`codepoint_at_lt`), so no `size_t` or `char32_t` operation of the decoder
wraps; only `string_width` adds modulo `2 ^ 64`.  A theorem that needs
`s.substr(pos, npos)` to reach the end of the string assumes what every
`std::string` satisfies, `s.size() <= npos`.
The external `mk_wcwidth` (its source is not part of the repository files)
is a parameter `wc` of every function that consults it.
-/

namespace Utf8

/-- One 8-bit unit of a `std::string`. -/
abbrev Byte := Fin 256

/-- The value of `std::string::npos`: the largest `size_t` (64 bit). -/
def npos : Nat := 2 ^ 64 - 1

/-- The constant `REPLACEMENT_CHAR` of utf8util.cpp. -/
def REPLACEMENT_CHAR : Nat := 0xFFFD

/-- The constant `BACKSPACE` of utf8util.cpp. -/
def BACKSPACE : Nat := 0x8

/-- The conversion `static_cast<unsigned char>(x)`. -/
def toByte (x : Nat) : Byte := ⟨x % 256, Nat.mod_lt x (by decide)⟩

/-- The access `s[i]` for an index inside the string. -/
def byteAt (s : List Byte) (i : Nat) : Byte := s.getD i 0

/-- The call `s.substr(pos, n)` for `pos <= s.size()`: at most `n` bytes from `pos` on. -/
def substr (s : List Byte) (pos n : Nat) : List Byte := (s.drop pos).take n

/-- Is this a single-byte codepoint (0xxxxxxx)? -/
def _is_1_byte_cp (b : Byte) : Bool := (b.val &&& 0x80) == 0x00

/-- Is this the start of a 2-byte codepoint (110xxxxx)? -/
def _is_2_byte_cp_start (b : Byte) : Bool := (b.val &&& 0xE0) == 0xC0

/-- Is this the start of a 3-byte codepoint (1110xxxx)? -/
def _is_3_byte_cp_start (b : Byte) : Bool := (b.val &&& 0xF0) == 0xE0

/-- Is this the start of a 4-byte codepoint (11110xxx)? -/
def _is_4_byte_cp_start (b : Byte) : Bool := (b.val &&& 0xF8) == 0xF0

/-- Is this a continuation byte of a multi-byte codepoint (10xxxxxx)? -/
def _is_continuation_byte (b : Byte) : Bool := (b.val &&& 0xC0) == 0x80

/-- Number of bytes in the codepoint at `byte_pos`, read off the first byte alone. -/
def _get_codepoint_byte_count (s : List Byte) (byte_pos : Nat) : Nat :=
  if byte_pos ≥ s.length then 0
  else
    let b := byteAt s byte_pos
    if _is_1_byte_cp b then 1
    else if _is_2_byte_cp_start b then 2
    else if _is_3_byte_cp_start b then 3
    else if _is_4_byte_cp_start b then 4
    else 0

/-- Is there a valid codepoint at the specified byte index?  The `for` loop over
the continuation bytes `byte_pos + 1 .. byte_pos + byte_count - 1` is the `all`. -/
def _is_valid_codepoint_at (s : List Byte) (byte_pos : Nat) : Bool :=
  if byte_pos ≥ s.length then false
  else
    let byte_count := _get_codepoint_byte_count s byte_pos
    if byte_count = 0 ∨ byte_pos + byte_count > s.length then false
    else (List.range (byte_count - 1)).all
      fun k => _is_continuation_byte (byteAt s (byte_pos + 1 + k))

/-- The continuation-byte loop of `_get_codepoint_at`: `iters` iterations are left,
the loop variable is `i`. -/
def _get_codepoint_at_loop (s : List Byte) (byte_pos : Nat) : Nat → Nat → Nat → Nat
  | 0, _, codepoint => codepoint
  | iters + 1, i, codepoint =>
    if !_is_continuation_byte (byteAt s (byte_pos + i)) then REPLACEMENT_CHAR
    else _get_codepoint_at_loop s byte_pos iters (i + 1)
      ((codepoint <<< 6) + ((byteAt s (byte_pos + i)).val &&& 0x3F))

/-- Get the codepoint at the specified byte index (assumes validly encoded codepoint). -/
def _get_codepoint_at (s : List Byte) (byte_pos : Nat) : Nat :=
  let byte_count := _get_codepoint_byte_count s byte_pos
  if byte_count = 0 ∨ byte_pos + byte_count > s.length then REPLACEMENT_CHAR
  else
    let b := (byteAt s byte_pos).val
    let codepoint :=
      if byte_count = 1 then b
      else if byte_count = 2 then b &&& 0x1F
      else if byte_count = 3 then b &&& 0x0F
      else b &&& 0x07
    _get_codepoint_at_loop s byte_pos (byte_count - 1) 1 codepoint

/-- Display width of a codepoint as a `size_t`; `wc` is `mk_wcwidth`. -/
def char_width (wc : Nat → Int) (c : Nat) : Nat :=
  let width := wc c
  if width < 0 then (if c = BACKSPACE then 2 ^ 64 - 1 else 0)
  else width.toNat % 2 ^ 64

/-- Combining chars modify the preceding character; `wc` is `mk_wcwidth`. -/
def _is_combining_char (wc : Nat → Int) (c : Nat) : Bool :=
  decide (c ≥ 0x0300) && (wc c == 0)

/-- The `while` loop of `_get_nth_character_byte_pos`. -/
def _get_nth_character_byte_pos_loop (wc : Nat → Int) (s : List Byte) (n : Nat) :
    Nat → Nat → Nat → Nat
  | 0, _, _ => s.length
  | fuel + 1, byte_pos, char_count =>
    if byte_pos < s.length then
      if _is_valid_codepoint_at s byte_pos then
        let c := _get_codepoint_at s byte_pos
        if byte_pos = 0 ∨ !_is_combining_char wc c then
          if char_count + 1 > n then byte_pos
          else _get_nth_character_byte_pos_loop wc s n fuel
            (byte_pos + _get_codepoint_byte_count s byte_pos) (char_count + 1)
        else _get_nth_character_byte_pos_loop wc s n fuel
          (byte_pos + _get_codepoint_byte_count s byte_pos) char_count
      else _get_nth_character_byte_pos_loop wc s n fuel (byte_pos + 1) char_count
    else s.length

/-- Get the byte position of the nth character (zero-based) starting from
`start_byte_pos`; `s.size()` if there are fewer. -/
def _get_nth_character_byte_pos (wc : Nat → Int) (s : List Byte) (n start_byte_pos : Nat) : Nat :=
  _get_nth_character_byte_pos_loop wc s n s.length start_byte_pos 0

/-- The `while` loop of `is_valid_utf8`. -/
def is_valid_utf8_loop (s : List Byte) : Nat → Nat → Bool
  | 0, _ => true
  | fuel + 1, byte_pos =>
    if byte_pos < s.length then
      if !_is_valid_codepoint_at s byte_pos then false
      else is_valid_utf8_loop s fuel (byte_pos + _get_codepoint_byte_count s byte_pos)
    else true

/-- Is this a valid utf-8 string? -/
def is_valid_utf8 (s : List Byte) : Bool := is_valid_utf8_loop s s.length 0

/-- The `while` loop of `string_width`. -/
def string_width_loop (wc : Nat → Int) (s : List Byte) : Nat → Nat → Nat → Nat
  | 0, _, width => width
  | fuel + 1, byte_pos, width =>
    if byte_pos < s.length then
      let cp_bytes := _get_codepoint_byte_count s byte_pos
      if cp_bytes = 0 then string_width_loop wc s fuel (byte_pos + 1) width
      else string_width_loop wc s fuel (byte_pos + cp_bytes)
        ((width + char_width wc (_get_codepoint_at s byte_pos)) % 2 ^ 64)
    else width

/-- String width in terminal columns. -/
def string_width (wc : Nat → Int) (s : List Byte) : Nat := string_width_loop wc s s.length 0 0

/-- The `while` loop of `count_codepoints`. -/
def count_codepoints_loop (s : List Byte) : Nat → Nat → Nat → Nat
  | 0, _, cp_count => cp_count
  | fuel + 1, byte_pos, cp_count =>
    if byte_pos < s.length then
      let cp_bytes := _get_codepoint_byte_count s byte_pos
      if cp_bytes = 0 then count_codepoints_loop s fuel (byte_pos + 1) cp_count
      else count_codepoints_loop s fuel (byte_pos + cp_bytes) (cp_count + 1)
    else cp_count

/-- Count codepoints in utf-8 string. -/
def count_codepoints (s : List Byte) : Nat := count_codepoints_loop s s.length 0 0

/-- Character-indexed substring: `wc` is `mk_wcwidth`. -/
def utf8_substring (wc : Nat → Int) (s : List Byte) (pos count : Nat) : List Byte :=
  let start_byte := _get_nth_character_byte_pos wc s pos 0
  if start_byte ≥ s.length then []
  else
    let byte_count :=
      if count ≠ npos then _get_nth_character_byte_pos wc s count start_byte - start_byte
      else npos
    substr s start_byte byte_count

/-- The first `while` loop of `utf8_cp_substring` ("determine start byte"); it
returns the final `byte_pos`. -/
def utf8_cp_substring_start_loop (s : List Byte) (pos : Nat) : Nat → Nat → Nat → Nat
  | 0, byte_pos, _ => byte_pos
  | fuel + 1, byte_pos, cp_pos =>
    if cp_pos < pos ∧ byte_pos < s.length then
      let cp_bytes := _get_codepoint_byte_count s byte_pos
      if cp_bytes = 0 then utf8_cp_substring_start_loop s pos fuel (byte_pos + 1) cp_pos
      else utf8_cp_substring_start_loop s pos fuel (byte_pos + cp_bytes) (cp_pos + 1)
    else byte_pos

/-- The second `while` loop of `utf8_cp_substring` ("determine byte_count"); it
returns the final `byte_pos`. -/
def utf8_cp_substring_count_loop (s : List Byte) (count : Nat) : Nat → Nat → Nat → Nat
  | 0, byte_pos, _ => byte_pos
  | fuel + 1, byte_pos, cp_count =>
    if cp_count < count ∧ byte_pos < s.length then
      let cp_bytes := _get_codepoint_byte_count s byte_pos
      if cp_bytes = 0 then utf8_cp_substring_count_loop s count fuel (byte_pos + 1) cp_count
      else utf8_cp_substring_count_loop s count fuel (byte_pos + cp_bytes) (cp_count + 1)
    else byte_pos

/-- Codepoint-indexed substring. -/
def utf8_cp_substring (s : List Byte) (pos count : Nat) : List Byte :=
  let start_byte := utf8_cp_substring_start_loop s pos s.length 0 0
  if start_byte ≥ s.length then []
  else
    let byte_count :=
      if count = npos then npos
      else utf8_cp_substring_count_loop s count s.length start_byte 0 - start_byte
    substr s start_byte byte_count

/-- The `while` loop of `utf8_to_codepoints`; `result` is the vector built so far. -/
def utf8_to_codepoints_loop (s : List Byte) : Nat → Nat → List Nat → List Nat
  | 0, _, result => result
  | fuel + 1, byte_pos, result =>
    if byte_pos < s.length then
      if _is_valid_codepoint_at s byte_pos then
        utf8_to_codepoints_loop s fuel (byte_pos + _get_codepoint_byte_count s byte_pos)
          (result ++ [_get_codepoint_at s byte_pos])
      else utf8_to_codepoints_loop s fuel (byte_pos + 1) result
    else result

/-- Convert utf-8 to codepoints. -/
def utf8_to_codepoints (s : List Byte) : List Nat := utf8_to_codepoints_loop s s.length 0 []

/-- The bytes one iteration of the `for` loop of `codepoints_to_utf8` writes to `oss`. -/
def codepoints_to_utf8_step (codepoint : Nat) : List Byte :=
  if codepoint ≤ 0x7F then [toByte codepoint]
  else if codepoint ≤ 0x7FF then
    [toByte (0xC0 ||| (codepoint >>> 6)), toByte (0x80 ||| (codepoint &&& 0x3F))]
  else if codepoint ≤ 0xFFFF then
    [toByte (0xE0 ||| (codepoint >>> 12)), toByte (0x80 ||| ((codepoint >>> 6) &&& 0x3F)),
      toByte (0x80 ||| (codepoint &&& 0x3F))]
  else if codepoint ≤ 0x10FFFF then
    [toByte (0xF0 ||| (codepoint >>> 18)), toByte (0x80 ||| ((codepoint >>> 12) &&& 0x3F)),
      toByte (0x80 ||| ((codepoint >>> 6) &&& 0x3F)), toByte (0x80 ||| (codepoint &&& 0x3F))]
  else []

/-- Convert codepoints to utf-8: the `for` loop appends to the stream `oss`. -/
def codepoints_to_utf8 (codepoints : List Nat) : List Byte :=
  codepoints.foldl (fun oss codepoint => oss ++ codepoints_to_utf8_step codepoint) []


/-! ## The specification's well-formed units -/

/-- The structurally well-formed units in the words of the specification: one byte
`0xxxxxxx`, or a lead byte `110xxxxx` / `1110xxxx` / `11110xxx` followed by exactly
1 / 2 / 3 bytes of the form `10xxxxxx`.  A bit pattern is read as the value of the
leading bits of the byte. -/
def well_formed_unit : List Byte → Bool
  | [b0] => b0.val / 128 == 0b0
  | [b0, b1] => b0.val / 32 == 0b110 && b1.val / 64 == 0b10
  | [b0, b1, b2] => b0.val / 16 == 0b1110 && b1.val / 64 == 0b10 && b2.val / 64 == 0b10
  | [b0, b1, b2, b3] =>
    b0.val / 8 == 0b11110 && b1.val / 64 == 0b10 && b2.val / 64 == 0b10 && b3.val / 64 == 0b10
  | _ => false

/-! ## The specification's encoded lengths -/

/-- The byte count in the words of the specification: 1 if `c <= 0x7F`, 2 if
`c <= 0x7FF`, 3 if `c <= 0xFFFF`, 4 if `c <= 0x10FFFF` and 0 otherwise. -/
def encoded_length (c : Nat) : Nat :=
  if c ≤ 0x7F then 1 else if c ≤ 0x7FF then 2 else if c ≤ 0xFFFF then 3
  else if c ≤ 0x10FFFF then 4 else 0

/-! ## The scan by first bytes -/

/-- The byte length a first byte declares by its leading bits: 1 for `0xxxxxxx`,
2 for `110xxxxx`, 3 for `1110xxxx`, 4 for `11110xxx`, and 0 for a byte that cannot
start a codepoint (`10xxxxxx` or `11111xxx`). -/
def declared_length (b : Byte) : Nat :=
  if b.val / 128 = 0b0 then 1
  else if b.val / 32 = 0b110 then 2
  else if b.val / 16 = 0b1110 then 3
  else if b.val / 8 = 0b11110 then 4
  else 0

/-- The left-to-right scan that counts a position exactly when its byte declares a
length, then passes over the bytes of that length without looking at them (`skip`
is how many of them are left, the end of the string cuts them short), and steps
over any other byte one at a time without counting it. -/
def lead_scan_count : Nat → List Byte → Nat
  | _, [] => 0
  | skip + 1, _ :: rest => lead_scan_count skip rest
  | 0, b :: rest =>
    if declared_length b = 0 then lead_scan_count 0 rest
    else 1 + lead_scan_count (declared_length b - 1) rest

/-- The call `utf8_substring(s, pos)` with `count` omitted: the declaration in
utf8util.h gives it the default argument `std::string::npos`. -/
def utf8_substring_from (wc : Nat → Int) (s : List Byte) (pos : Nat) : List Byte :=
  utf8_substring wc s pos npos

/-- The bytes at the end of the string that the scan by first bytes stepped over
one at a time after the last codepoint it counted, as a number of bytes: `run` is
the length of the current run of bytes that declare no length, a byte that declares
a length ends the run and the `skip` bytes of its length are passed over. -/
def stray_tail_length : Nat → Nat → List Byte → Nat
  | run, _, [] => run
  | _, skip + 1, _ :: rest => stray_tail_length 0 skip rest
  | run, 0, b :: rest =>
    if declared_length b = 0 then stray_tail_length (run + 1) 0 rest
    else stray_tail_length 0 (declared_length b - 1) rest

/-! ## Basic facts about the decoder -/

theorem byte_count_le_four (s : List Byte) (p : Nat) : _get_codepoint_byte_count s p ≤ 4 := by
  unfold _get_codepoint_byte_count
  split
  · omega
  · simp only []
    split_ifs <;> omega

theorem byte_count_eq_zero_of_ge (s : List Byte) (p : Nat) (h : s.length ≤ p) :
    _get_codepoint_byte_count s p = 0 := by
  unfold _get_codepoint_byte_count
  simp [h]

theorem valid_at_fits (s : List Byte) (p : Nat) (h : _is_valid_codepoint_at s p = true) :
    0 < _get_codepoint_byte_count s p ∧ p + _get_codepoint_byte_count s p ≤ s.length := by
  unfold _is_valid_codepoint_at at h
  split at h
  · simp at h
  · simp only [] at h
    split at h
    · simp at h
    · omega

/-! ## The iteration budget never stops a loop

Each loop gives the same result for any two budgets of at least
`s.size() - byte_pos` iterations. -/

theorem count_codepoints_loop_fuel_irrel (s : List Byte) : ∀ (f1 f2 p c : Nat),
    s.length ≤ p + f1 → s.length ≤ p + f2 →
    count_codepoints_loop s f1 p c = count_codepoints_loop s f2 p c := by
  intro f1
  induction f1 with
  | zero =>
    intro f2 p c h1 _
    cases f2 with
    | zero => rfl
    | succ f2 =>
      have : ¬ p < s.length := by omega
      simp [count_codepoints_loop, this]
  | succ f1 ih =>
    intro f2 p c h1 h2
    cases f2 with
    | zero =>
      have : ¬ p < s.length := by omega
      simp [count_codepoints_loop, this]
    | succ f2 =>
      unfold count_codepoints_loop
      by_cases hp : p < s.length
      · simp only [hp, if_true]
        split_ifs
        · exact ih _ _ _ (by omega) (by omega)
        · exact ih _ _ _ (by omega) (by omega)
      · simp [hp]

theorem is_valid_utf8_loop_fuel_irrel (s : List Byte) : ∀ (f1 f2 p : Nat),
    s.length ≤ p + f1 → s.length ≤ p + f2 →
    is_valid_utf8_loop s f1 p = is_valid_utf8_loop s f2 p := by
  intro f1
  induction f1 with
  | zero =>
    intro f2 p h1 _
    cases f2 with
    | zero => rfl
    | succ f2 =>
      have : ¬ p < s.length := by omega
      simp [is_valid_utf8_loop, this]
  | succ f1 ih =>
    intro f2 p h1 h2
    cases f2 with
    | zero =>
      have : ¬ p < s.length := by omega
      simp [is_valid_utf8_loop, this]
    | succ f2 =>
      unfold is_valid_utf8_loop
      by_cases hp : p < s.length
      · simp only [hp, if_true]
        by_cases hv : _is_valid_codepoint_at s p = true
        · have := valid_at_fits s p hv
          simp only [hv, Bool.not_true, if_false]
          exact ih _ _ (by omega) (by omega)
        · simp [hv]
      · simp [hp]

theorem utf8_to_codepoints_loop_fuel_irrel (s : List Byte) : ∀ (f1 f2 p : Nat) (r : List Nat),
    s.length ≤ p + f1 → s.length ≤ p + f2 →
    utf8_to_codepoints_loop s f1 p r = utf8_to_codepoints_loop s f2 p r := by
  intro f1
  induction f1 with
  | zero =>
    intro f2 p r h1 _
    cases f2 with
    | zero => rfl
    | succ f2 =>
      have : ¬ p < s.length := by omega
      simp [utf8_to_codepoints_loop, this]
  | succ f1 ih =>
    intro f2 p r h1 h2
    cases f2 with
    | zero =>
      have : ¬ p < s.length := by omega
      simp [utf8_to_codepoints_loop, this]
    | succ f2 =>
      unfold utf8_to_codepoints_loop
      by_cases hp : p < s.length
      · simp only [hp, if_true]
        by_cases hv : _is_valid_codepoint_at s p = true
        · have := valid_at_fits s p hv
          simp only [hv, if_true]
          exact ih _ _ _ (by omega) (by omega)
        · simp only [hv, if_false]
          exact ih _ _ _ (by omega) (by omega)
      · simp [hp]

theorem nth_loop_fuel_irrel (wc : Nat → Int) (s : List Byte) (n : Nat) : ∀ (f1 f2 p c : Nat),
    s.length ≤ p + f1 → s.length ≤ p + f2 →
    _get_nth_character_byte_pos_loop wc s n f1 p c
      = _get_nth_character_byte_pos_loop wc s n f2 p c := by
  intro f1
  induction f1 with
  | zero =>
    intro f2 p c h1 _
    cases f2 with
    | zero => rfl
    | succ f2 =>
      have : ¬ p < s.length := by omega
      simp [_get_nth_character_byte_pos_loop, this]
  | succ f1 ih =>
    intro f2 p c h1 h2
    cases f2 with
    | zero =>
      have : ¬ p < s.length := by omega
      simp [_get_nth_character_byte_pos_loop, this]
    | succ f2 =>
      unfold _get_nth_character_byte_pos_loop
      by_cases hp : p < s.length
      · simp only [hp, if_true]
        by_cases hv : _is_valid_codepoint_at s p = true
        · have := valid_at_fits s p hv
          simp only [hv, if_true]
          split_ifs
          · rfl
          · exact ih _ _ _ (by omega) (by omega)
          · exact ih _ _ _ (by omega) (by omega)
        · simp only [hv, if_false]
          exact ih _ _ _ (by omega) (by omega)
      · simp [hp]

theorem start_loop_fuel_irrel (s : List Byte) (pos : Nat) : ∀ (f1 f2 p c : Nat),
    s.length ≤ p + f1 → s.length ≤ p + f2 →
    utf8_cp_substring_start_loop s pos f1 p c = utf8_cp_substring_start_loop s pos f2 p c := by
  intro f1
  induction f1 with
  | zero =>
    intro f2 p c h1 _
    cases f2 with
    | zero => rfl
    | succ f2 =>
      have : ¬ (c < pos ∧ p < s.length) := by omega
      simp [utf8_cp_substring_start_loop, this]
  | succ f1 ih =>
    intro f2 p c h1 h2
    cases f2 with
    | zero =>
      have : ¬ (c < pos ∧ p < s.length) := by omega
      simp [utf8_cp_substring_start_loop, this]
    | succ f2 =>
      unfold utf8_cp_substring_start_loop
      by_cases hp : c < pos ∧ p < s.length
      · simp only [hp, and_self, if_true]
        split_ifs
        · exact ih _ _ _ (by omega) (by omega)
        · exact ih _ _ _ (by omega) (by omega)
      · simp [hp]

theorem count_loop_fuel_irrel (s : List Byte) (count : Nat) : ∀ (f1 f2 p c : Nat),
    s.length ≤ p + f1 → s.length ≤ p + f2 →
    utf8_cp_substring_count_loop s count f1 p c = utf8_cp_substring_count_loop s count f2 p c := by
  intro f1
  induction f1 with
  | zero =>
    intro f2 p c h1 _
    cases f2 with
    | zero => rfl
    | succ f2 =>
      have : ¬ (c < count ∧ p < s.length) := by omega
      simp [utf8_cp_substring_count_loop, this]
  | succ f1 ih =>
    intro f2 p c h1 h2
    cases f2 with
    | zero =>
      have : ¬ (c < count ∧ p < s.length) := by omega
      simp [utf8_cp_substring_count_loop, this]
    | succ f2 =>
      unfold utf8_cp_substring_count_loop
      by_cases hp : c < count ∧ p < s.length
      · simp only [hp, and_self, if_true]
        split_ifs
        · exact ih _ _ _ (by omega) (by omega)
        · exact ih _ _ _ (by omega) (by omega)
      · simp [hp]

theorem string_width_loop_fuel_irrel (wc : Nat → Int) (s : List Byte) : ∀ (f1 f2 p w : Nat),
    s.length ≤ p + f1 → s.length ≤ p + f2 →
    string_width_loop wc s f1 p w = string_width_loop wc s f2 p w := by
  intro f1
  induction f1 with
  | zero =>
    intro f2 p w h1 _
    cases f2 with
    | zero => rfl
    | succ f2 =>
      have : ¬ p < s.length := by omega
      simp [string_width_loop, this]
  | succ f1 ih =>
    intro f2 p w h1 h2
    cases f2 with
    | zero =>
      have : ¬ p < s.length := by omega
      simp [string_width_loop, this]
    | succ f2 =>
      unfold string_width_loop
      by_cases hp : p < s.length
      · simp only [hp, if_true]
        split_ifs
        · exact ih _ _ _ (by omega) (by omega)
        · exact ih _ _ _ (by omega) (by omega)
      · simp [hp]

/-! ## A decoded value fits in 21 bits -/

theorem codepoint_at_loop_lt (s : List Byte) (p : Nat) : ∀ (iters i cp bound : Nat),
    cp < bound → REPLACEMENT_CHAR < bound * 64 ^ iters →
    _get_codepoint_at_loop s p iters i cp < bound * 64 ^ iters := by
  intro iters
  induction iters with
  | zero => intro i cp bound h _; simpa [_get_codepoint_at_loop] using h
  | succ n ih =>
    intro i cp bound h hr
    unfold _get_codepoint_at_loop
    split_ifs
    · exact hr
    · have hx : (byteAt s (p + i)).val &&& 0x3F ≤ 0x3F := Nat.and_le_right
      have hb : bound * 64 ^ (n + 1) = bound * 64 * 64 ^ n := by
        rw [Nat.pow_succ, Nat.mul_assoc, Nat.mul_comm (64 ^ n) 64]
      rw [hb] at hr ⊢
      apply ih
      · rw [Nat.shiftLeft_eq]
        have : (2 : Nat) ^ 6 = 64 := by norm_num
        rw [this]
        omega
      · exact hr

theorem codepoint_at_lt (s : List Byte) (p : Nat) : _get_codepoint_at s p < 2 ^ 21 := by
  unfold _get_codepoint_at
  simp only []
  have h4 := byte_count_le_four s p
  split_ifs with h0 h1 h2 h3
  · decide
  · rw [h1]
    have hb : (byteAt s p).val < 256 := (byteAt s p).isLt
    simp only [Nat.sub_self, _get_codepoint_at_loop]
    omega
  · rw [h2]
    have hx : (byteAt s p).val &&& 0x1F ≤ 0x1F := Nat.and_le_right
    exact codepoint_at_loop_lt s p 1 1 ((byteAt s p).val &&& 0x1F) (2 ^ 15) (by omega) (by decide)
  · rw [h3]
    have hx : (byteAt s p).val &&& 0x0F ≤ 0x0F := Nat.and_le_right
    exact codepoint_at_loop_lt s p 2 1 ((byteAt s p).val &&& 0x0F) (2 ^ 9) (by omega) (by decide)
  · have hbc : _get_codepoint_byte_count s p = 4 := by omega
    rw [hbc]
    have hx : (byteAt s p).val &&& 0x07 ≤ 0x07 := Nat.and_le_right
    exact codepoint_at_loop_lt s p 3 1 ((byteAt s p).val &&& 0x07) (2 ^ 3) (by omega) (by decide)

/-! ## C2 -/

theorem count_decode_lockstep (s : List Byte) : ∀ (fuel p n : Nat) (acc : List Nat),
    is_valid_utf8_loop s fuel p = true →
    count_codepoints_loop s fuel p n + acc.length
      = (utf8_to_codepoints_loop s fuel p acc).length + n := by
  intro fuel
  induction fuel with
  | zero => intro p n acc _; simp [count_codepoints_loop, utf8_to_codepoints_loop, Nat.add_comm]
  | succ fuel ih =>
    intro p n acc hv
    unfold is_valid_utf8_loop at hv
    unfold count_codepoints_loop utf8_to_codepoints_loop
    by_cases hp : p < s.length
    · simp only [hp, if_true] at hv ⊢
      by_cases hva : _is_valid_codepoint_at s p = true
      · have hfit := valid_at_fits s p hva
        have hne : _get_codepoint_byte_count s p ≠ 0 := by omega
        simp only [hva, Bool.not_true, if_true, if_false, hne] at hv ⊢
        have := ih (p + _get_codepoint_byte_count s p) (n + 1)
          (acc ++ [_get_codepoint_at s p]) (by simpa using hv)
        simp only [List.length_append, List.length_singleton] at this
        omega
      · simp [hva] at hv
    · simp only [hp, if_false]
      omega

/-- C2: on a byte sequence accepted by `is_valid_utf8`, `count_codepoints` is the
number of codepoints `utf8_to_codepoints` decodes. -/
theorem count_codepoints_eq_length_decode (s : List Byte) (h : is_valid_utf8 s = true) :
    count_codepoints s = (utf8_to_codepoints s).length := by
  have := count_decode_lockstep s s.length 0 0 [] h
  simpa [count_codepoints, utf8_to_codepoints] using this

/-- C2 at the two-codepoint string `"ç"` followed by `"a"`. -/
theorem count_codepoints_eq_length_decode_witness :
    is_valid_utf8 [0xC3, 0xA7, 0x61] = true ∧
    count_codepoints [0xC3, 0xA7, 0x61] = (utf8_to_codepoints [0xC3, 0xA7, 0x61]).length :=
  ⟨by decide, count_codepoints_eq_length_decode [0xC3, 0xA7, 0x61] (by decide)⟩

/-! ## C4 -/

theorem substr_length (s : List Byte) (a n : Nat) :
    (substr s a n).length = min n (s.length - a) := by
  simp [substr]

theorem npos_ne_zero : (0 : Nat) ≠ npos := by decide

/-- C4: for a string of at most `npos` bytes (every `std::string`), the
codepoint substring for any `count` is no longer than the one for `npos`, also
when the walk runs past the end of the string. -/
theorem utf8_cp_substring_length_le_unbounded (s : List Byte) (pos count : Nat)
    (hs : s.length ≤ npos) :
    (utf8_cp_substring s pos count).length ≤ (utf8_cp_substring s pos npos).length := by
  unfold utf8_cp_substring
  simp only []
  split_ifs with h1 h2
  · simp
  · simp
  · simp only [substr_length]
    omega

/-- C4 at `"a"` followed by a truncated two-byte lead, where the walk overshoots. -/
theorem utf8_cp_substring_length_le_unbounded_witness :
    ([0x61, 0xC3] : List Byte).length ≤ npos ∧
    (utf8_cp_substring [0x61, 0xC3] 0 2).length ≤ (utf8_cp_substring [0x61, 0xC3] 0 npos).length :=
  ⟨by decide, utf8_cp_substring_length_le_unbounded [0x61, 0xC3] 0 2 (by decide)⟩

/-! ## The character walk -/

theorem nth_loop_spec (wc : Nat → Int) (s : List Byte) (n : Nat) : ∀ (fuel p c : Nat),
    _get_nth_character_byte_pos_loop wc s n fuel p c ≤ s.length ∧
    (_get_nth_character_byte_pos_loop wc s n fuel p c < s.length →
      p ≤ _get_nth_character_byte_pos_loop wc s n fuel p c ∧
      _is_valid_codepoint_at s (_get_nth_character_byte_pos_loop wc s n fuel p c) = true ∧
      (_get_nth_character_byte_pos_loop wc s n fuel p c = 0 ∨
        _is_combining_char wc
          (_get_codepoint_at s (_get_nth_character_byte_pos_loop wc s n fuel p c)) = false)) := by
  intro fuel
  induction fuel with
  | zero => intro p c; simp [_get_nth_character_byte_pos_loop]
  | succ fuel ih =>
    intro p c
    unfold _get_nth_character_byte_pos_loop
    by_cases hp : p < s.length
    · simp only [hp, if_true]
      by_cases hv : _is_valid_codepoint_at s p = true
      · simp only [hv, if_true]
        by_cases hc : p = 0 ∨ (!_is_combining_char wc (_get_codepoint_at s p)) = true
        · simp only [hc, if_true]
          by_cases hn : c + 1 > n
          · simp only [hn, if_true]
            refine ⟨Nat.le_of_lt hp, fun _ => ⟨Nat.le_refl _, hv, ?_⟩⟩
            rcases hc with h0 | h1
            · exact Or.inl h0
            · right; simpa using h1
          · simp only [hn, if_false]
            have := ih (p + _get_codepoint_byte_count s p) (c + 1)
            refine ⟨this.1, fun h => ?_⟩
            have h2 := this.2 h
            exact ⟨by omega, h2.2⟩
        · simp only [hc, if_false]
          have := ih (p + _get_codepoint_byte_count s p) c
          refine ⟨this.1, fun h => ?_⟩
          have h2 := this.2 h
          exact ⟨by omega, h2.2⟩
      · rw [if_neg hv]
        have := ih (p + 1) c
        refine ⟨this.1, fun h => ?_⟩
        have h2 := this.2 h
        exact ⟨by omega, h2.2⟩
    · simp [hp]

theorem nth_zero_at_char_start (wc : Nat → Int) (s : List Byte) (p : Nat)
    (hp : p < s.length) (hv : _is_valid_codepoint_at s p = true)
    (hc : p = 0 ∨ _is_combining_char wc (_get_codepoint_at s p) = false) :
    _get_nth_character_byte_pos wc s 0 p = p := by
  unfold _get_nth_character_byte_pos
  obtain ⟨k, hk⟩ : ∃ k, s.length = k + 1 := ⟨s.length - 1, by omega⟩
  rw [hk]
  unfold _get_nth_character_byte_pos_loop
  have hp2 : p < k + 1 := by omega
  rcases hc with h0 | h1
  · subst h0
    simp [hk, hv]
  · simp [hk, hp2, hv, h1]

/-! ## C10 -/

/-- C10: a character substring of zero characters is empty, for every string,
every start position and every display-width table. -/
theorem utf8_substring_count_zero (wc : Nat → Int) (s : List Byte) (pos : Nat) :
    utf8_substring wc s pos 0 = [] := by
  unfold utf8_substring
  simp only []
  split_ifs with h1 h2
  · rfl
  · have hspec := nth_loop_spec wc s pos s.length 0 0
    have hlt : _get_nth_character_byte_pos wc s pos 0 < s.length := by omega
    have h3 := hspec.2 hlt
    rw [nth_zero_at_char_start wc s _ hlt h3.2.1 h3.2.2]
    simp [substr]
  · exact absurd h2 (by simpa using npos_ne_zero)

/-! ## C8 -/

/-- C8: with `start` and `end` the byte offsets the two walks of `utf8_substring`
return (`end` is the string length for `count = npos`), the result is the slice
`s[start, end)`; if the slice is non-empty and stops before the end of `s`, a
valid codepoint that is not a combining character begins at `end`; and if
`0 < start < len(s)` the same holds at `start`. -/
theorem utf8_substring_keeps_combining_marks (wc : Nat → Int) (s : List Byte) (pos count : Nat)
    (hs : s.length ≤ npos) :
    (utf8_substring wc s pos count
      = (s.drop (_get_nth_character_byte_pos wc s pos 0)).take
          ((if count = npos then s.length
            else _get_nth_character_byte_pos wc s count (_get_nth_character_byte_pos wc s pos 0))
            - _get_nth_character_byte_pos wc s pos 0)) ∧
    ((if count = npos then s.length
        else _get_nth_character_byte_pos wc s count (_get_nth_character_byte_pos wc s pos 0))
        < s.length →
      _get_nth_character_byte_pos wc s pos 0
        < (if count = npos then s.length
            else _get_nth_character_byte_pos wc s count (_get_nth_character_byte_pos wc s pos 0)) →
      _is_valid_codepoint_at s
          (if count = npos then s.length
            else _get_nth_character_byte_pos wc s count (_get_nth_character_byte_pos wc s pos 0))
          = true ∧
        _is_combining_char wc (_get_codepoint_at s
          (if count = npos then s.length
            else _get_nth_character_byte_pos wc s count (_get_nth_character_byte_pos wc s pos 0)))
          = false) ∧
    (0 < _get_nth_character_byte_pos wc s pos 0 →
      _get_nth_character_byte_pos wc s pos 0 < s.length →
      _is_valid_codepoint_at s (_get_nth_character_byte_pos wc s pos 0) = true ∧
        _is_combining_char wc (_get_codepoint_at s (_get_nth_character_byte_pos wc s pos 0))
          = false) := by
  have hstart := nth_loop_spec wc s pos s.length 0 0
  have hend := nth_loop_spec wc s count s.length (_get_nth_character_byte_pos wc s pos 0) 0
  rw [← _get_nth_character_byte_pos.eq_1] at hstart hend
  have hu : utf8_substring wc s pos count
      = if _get_nth_character_byte_pos wc s pos 0 ≥ s.length then []
        else substr s (_get_nth_character_byte_pos wc s pos 0)
          (if count ≠ npos then
            _get_nth_character_byte_pos wc s count (_get_nth_character_byte_pos wc s pos 0)
              - _get_nth_character_byte_pos wc s pos 0
          else npos) := rfl
  rw [hu]
  clear hu
  generalize _get_nth_character_byte_pos wc s pos 0 = st at *
  refine ⟨?_, ?_, ?_⟩
  · by_cases h1 : st ≥ s.length
    · rw [if_pos h1, List.drop_eq_nil_of_le h1]; simp
    · rw [if_neg h1]
      by_cases h2 : count = npos
      · simp only [h2, ne_eq, not_true_eq_false, if_false, if_true, substr]
        rw [List.take_of_length_le (by simp; omega), List.take_of_length_le (by simp)]
      · simp only [h2, ne_eq, not_false_eq_true, if_true, if_false, substr]
  · intro he hlt
    by_cases hc : count = npos
    · simp [hc] at he
    · simp only [hc, if_false] at he hlt ⊢
      have h := hend.2 he
      refine ⟨h.2.1, ?_⟩
      rcases h.2.2 with h0 | h1
      · omega
      · exact h1
  · intro h0 hlt
    have h := hstart.2 hlt
    refine ⟨h.2.1, ?_⟩
    rcases h.2.2 with h0 | h1
    · omega
    · exact h1

/-- C8 at `"u"`, U+0308, `"x"` with a table that makes U+0308 zero-width: the first
character is `u` with its combining mark. -/
theorem utf8_substring_keeps_combining_marks_witness :
    ([0x75, 0xCC, 0x88, 0x78] : List Byte).length ≤ npos ∧
    utf8_substring (fun c => if c = 0x308 then 0 else 1) [0x75, 0xCC, 0x88, 0x78] 0 1
      = [0x75, 0xCC, 0x88] :=
  ⟨by decide,
   ((utf8_substring_keeps_combining_marks (fun c => if c = 0x308 then 0 else 1)
      [0x75, 0xCC, 0x88, 0x78] 0 1 (by decide)).1).trans (by decide)⟩

/-! ## C3 -/

theorem count_codepoints_loop_acc (s : List Byte) : ∀ (f p c : Nat),
    count_codepoints_loop s f p c = c + count_codepoints_loop s f p 0 := by
  intro f
  induction f with
  | zero => intro p c; simp [count_codepoints_loop]
  | succ f ih =>
    intro p c
    unfold count_codepoints_loop
    by_cases hp : p < s.length
    · simp only [hp, if_true]
      split_ifs
      · exact ih _ _
      · rw [ih _ (c + 1), ih _ (0 + 1)]; omega
    · simp [hp]

theorem byteAt_eq_getElem (s : List Byte) (i : Nat) (h : i < s.length) : byteAt s i = s[i] := by
  simp [byteAt, List.getD_eq_getElem?_getD, List.getElem?_eq_getElem h]

theorem byte_count_eq_of_byte (s : List Byte) (p : Nat) (hp : p < s.length) :
    _get_codepoint_byte_count s p = _get_codepoint_byte_count [byteAt s p] 0 := by
  have h : ¬ p ≥ s.length := by omega
  simp [_get_codepoint_byte_count, h, byteAt]

theorem start_loop_ge (s : List Byte) (pos : Nat) : ∀ (f p c : Nat),
    p ≤ utf8_cp_substring_start_loop s pos f p c := by
  intro f
  induction f with
  | zero => intro p c; simp [utf8_cp_substring_start_loop]
  | succ f ih =>
    intro p c
    unfold utf8_cp_substring_start_loop
    by_cases hcond : c < pos ∧ p < s.length
    · simp only [hcond, and_self, if_true]
      by_cases hk : _get_codepoint_byte_count s p = 0
      · simp only [hk, if_true]
        exact Nat.le_trans (Nat.le_succ p) (ih _ _)
      · simp only [hk, if_false]
        exact Nat.le_trans (Nat.le_add_right p _) (ih _ _)
    · rw [if_neg hcond]

theorem no_start_of_count_zero (s : List Byte) : ∀ (f p : Nat), s.length ≤ p + f →
    count_codepoints_loop s f p 0 = 0 →
    ∀ i, p ≤ i → i < s.length → _get_codepoint_byte_count s i = 0 := by
  intro f
  induction f with
  | zero => intro p hf _ i hi hlt; omega
  | succ f ih =>
    intro p hf h0 i hi hlt
    unfold count_codepoints_loop at h0
    have hp : p < s.length := by omega
    simp only [hp, if_true] at h0
    by_cases hk : _get_codepoint_byte_count s p = 0
    · simp only [hk, if_true] at h0
      by_cases hip : i = p
      · rw [hip]; exact hk
      · exact ih (p + 1) (by omega) h0 i (by omega) hlt
    · simp only [hk, if_false] at h0
      rw [count_codepoints_loop_acc] at h0
      omega

theorem no_start_after_clamp (s : List Byte) (pos : Nat) : ∀ (f p c : Nat), s.length ≤ p + f →
    count_codepoints_loop s f p 0 ≤ pos - c →
    ∀ i, utf8_cp_substring_start_loop s pos f p c ≤ i → i < s.length →
      _get_codepoint_byte_count s i = 0 := by
  intro f
  induction f with
  | zero =>
    intro p c hf _ i hi hlt
    simp only [utf8_cp_substring_start_loop] at hi
    omega
  | succ f ih =>
    intro p c hf hc i hi hlt
    by_cases hcond : c < pos ∧ p < s.length
    · unfold utf8_cp_substring_start_loop at hi
      unfold count_codepoints_loop at hc
      simp only [hcond, and_self, if_true] at hi hc
      by_cases hk : _get_codepoint_byte_count s p = 0
      · simp only [hk, if_true] at hi hc
        exact ih (p + 1) c (by omega) hc i hi hlt
      · simp only [hk, if_false] at hi hc
        rw [count_codepoints_loop_acc] at hc
        exact ih _ (c + 1) (by omega) (by omega) i hi hlt
    · unfold utf8_cp_substring_start_loop at hi
      rw [if_neg hcond] at hi
      by_cases hp : p < s.length
      · have hz : count_codepoints_loop s (f + 1) p 0 = 0 := by omega
        exact no_start_of_count_zero s (f + 1) p hf hz i hi hlt
      · omega

theorem start_at_end_of_valid (s : List Byte) (pos : Nat) : ∀ (f p c : Nat), s.length ≤ p + f →
    is_valid_utf8_loop s f p = true → count_codepoints_loop s f p 0 ≤ pos - c →
    s.length ≤ utf8_cp_substring_start_loop s pos f p c := by
  intro f
  induction f with
  | zero =>
    intro p c hf _ _
    simp only [utf8_cp_substring_start_loop]
    omega
  | succ f ih =>
    intro p c hf hv hc
    by_cases hp : p < s.length
    · unfold is_valid_utf8_loop at hv
      unfold count_codepoints_loop at hc
      unfold utf8_cp_substring_start_loop
      simp only [hp, if_true] at hv hc
      by_cases hva : _is_valid_codepoint_at s p = true
      · have hfit := valid_at_fits s p hva
        have hk : _get_codepoint_byte_count s p ≠ 0 := by omega
        simp only [hva, Bool.not_true, if_false, Bool.false_eq_true] at hv
        simp only [hk, if_false] at hc
        rw [count_codepoints_loop_acc] at hc
        have hcp : c < pos := by omega
        simp only [hcp, hp, and_self, if_true, hk, if_false]
        exact ih _ (c + 1) (by omega) hv (by omega)
      · simp [hva] at hv
    · exact Nat.le_trans (by omega) (start_loop_ge s pos (f + 1) p c)

/-- C3 as stated fails: the one-byte string `0x80` has no codepoint, yet its
codepoint substring from position 0 is the byte itself. -/
theorem utf8_cp_substring_clamp_counterexample :
    ¬ ∀ (s : List Byte) (pos count : Nat),
        pos ≥ count_codepoints s → utf8_cp_substring s pos count = [] := by
  intro h
  exact absurd (h [0x80] 0 npos (by decide)) (by decide)

/-! ## The decoder on a suffix of the string -/

theorem byteAt_drop (s : List Byte) (k i : Nat) : byteAt (s.drop k) i = byteAt s (k + i) := by
  simp [byteAt, List.getElem?_drop]

theorem byte_count_drop (s : List Byte) (k p : Nat) :
    _get_codepoint_byte_count (s.drop k) p = _get_codepoint_byte_count s (k + p) := by
  unfold _get_codepoint_byte_count
  rw [byteAt_drop, List.length_drop]
  by_cases h : k + p ≥ s.length
  · have h2 : p ≥ s.length - k := by omega
    simp [h, h2]
  · have h2 : ¬ p ≥ s.length - k := by omega
    simp [h, h2]

theorem valid_at_drop (s : List Byte) (k p : Nat) :
    _is_valid_codepoint_at (s.drop k) p = _is_valid_codepoint_at s (k + p) := by
  unfold _is_valid_codepoint_at
  rw [byte_count_drop, List.length_drop]
  simp only [byteAt_drop]
  by_cases h : k + p ≥ s.length
  · have h2 : p ≥ s.length - k := by omega
    simp [h, h2]
  · have h2 : ¬ p ≥ s.length - k := by omega
    have h3 : (p + _get_codepoint_byte_count s (k + p) > s.length - k)
        ↔ (k + p + _get_codepoint_byte_count s (k + p) > s.length) := by omega
    simp only [h, h2, if_false, h3, Nat.add_assoc]

theorem codepoint_at_loop_drop (s : List Byte) (k p : Nat) : ∀ (iters i cp : Nat),
    _get_codepoint_at_loop (s.drop k) p iters i cp = _get_codepoint_at_loop s (k + p) iters i cp := by
  intro iters
  induction iters with
  | zero => intro i cp; rfl
  | succ n ih =>
    intro i cp
    unfold _get_codepoint_at_loop
    rw [byteAt_drop, ih, Nat.add_assoc]

theorem codepoint_at_drop (s : List Byte) (k p : Nat) :
    _get_codepoint_at (s.drop k) p = _get_codepoint_at s (k + p) := by
  unfold _get_codepoint_at
  rw [byte_count_drop, List.length_drop, byteAt_drop]
  simp only [codepoint_at_loop_drop]
  by_cases h : k + p ≥ s.length
  · have hz := byte_count_eq_zero_of_ge s (k + p) h
    simp [hz]
  · have h3 : (p + _get_codepoint_byte_count s (k + p) > s.length - k)
        ↔ (k + p + _get_codepoint_byte_count s (k + p) > s.length) := by omega
    simp only [h3]

theorem utf8_to_codepoints_loop_drop (s : List Byte) (k : Nat) : ∀ (f p : Nat) (r : List Nat),
    utf8_to_codepoints_loop (s.drop k) f p r = utf8_to_codepoints_loop s f (k + p) r := by
  intro f
  induction f with
  | zero => intro p r; rfl
  | succ f ih =>
    intro p r
    unfold utf8_to_codepoints_loop
    rw [valid_at_drop, byte_count_drop, codepoint_at_drop, List.length_drop, ih, ih]
    by_cases h : k + p < s.length
    · have h2 : p < s.length - k := by omega
      simp only [h, h2, if_true, Nat.add_assoc]
    · have h2 : ¬ p < s.length - k := by omega
      simp only [h, h2, if_false]

theorem utf8_to_codepoints_loop_acc (s : List Byte) : ∀ (f p : Nat) (r : List Nat),
    utf8_to_codepoints_loop s f p r = r ++ utf8_to_codepoints_loop s f p [] := by
  intro f
  induction f with
  | zero => intro p r; simp [utf8_to_codepoints_loop]
  | succ f ih =>
    intro p r
    unfold utf8_to_codepoints_loop
    by_cases hp : p < s.length
    · simp only [hp, if_true]
      by_cases hv : _is_valid_codepoint_at s p = true
      · simp only [hv, if_true]
        rw [ih _ (r ++ _), ih _ ([] ++ _)]
        simp
      · rw [if_neg hv, if_neg hv]
        exact ih _ _
    · simp [hp]

/-- Decoding a string that starts with a valid codepoint: the codepoint, then the
decoding of what follows its bytes. -/
theorem utf8_to_codepoints_cons (s : List Byte) (h : _is_valid_codepoint_at s 0 = true) :
    utf8_to_codepoints s
      = _get_codepoint_at s 0 :: utf8_to_codepoints (s.drop (_get_codepoint_byte_count s 0)) := by
  have hfit := valid_at_fits s 0 h
  unfold utf8_to_codepoints
  obtain ⟨n, hn⟩ : ∃ n, s.length = n + 1 := ⟨s.length - 1, by omega⟩
  rw [hn]
  conv => lhs; unfold utf8_to_codepoints_loop
  have h0 : 0 < n + 1 := by omega
  simp only [h0, if_true, h, List.nil_append, Nat.zero_add]
  rw [utf8_to_codepoints_loop_acc, utf8_to_codepoints_loop_drop, List.length_drop, hn]
  simp only [List.singleton_append, Nat.add_zero]
  rw [if_pos h0]
  congr 1
  apply utf8_to_codepoints_loop_fuel_irrel <;> omega

/-! ## One encoded unit at the head of a string -/

set_option maxRecDepth 100000 in
theorem lead_byte_exclusive : ∀ b : Byte,
    (_is_2_byte_cp_start b = true → _is_1_byte_cp b = false) ∧
    (_is_3_byte_cp_start b = true → _is_1_byte_cp b = false ∧ _is_2_byte_cp_start b = false) ∧
    (_is_4_byte_cp_start b = true →
      _is_1_byte_cp b = false ∧ _is_2_byte_cp_start b = false ∧ _is_3_byte_cp_start b = false) ∧
    (_is_continuation_byte b = true →
      _is_1_byte_cp b = false ∧ _is_2_byte_cp_start b = false ∧ _is_3_byte_cp_start b = false
        ∧ _is_4_byte_cp_start b = false) := by
  decide

theorem unit1_at_head (b0 : Byte) (rest : List Byte) (h0 : _is_1_byte_cp b0 = true) :
    _is_valid_codepoint_at (b0 :: rest) 0 = true ∧
    _get_codepoint_byte_count (b0 :: rest) 0 = 1 ∧
    _get_codepoint_at (b0 :: rest) 0 = b0.val := by
  have hbc : _get_codepoint_byte_count (b0 :: rest) 0 = 1 := by
    simp [_get_codepoint_byte_count, byteAt, h0]
  refine ⟨?_, hbc, ?_⟩
  · simp [_is_valid_codepoint_at, hbc]
  · simp [_get_codepoint_at, hbc, _get_codepoint_at_loop, byteAt]

theorem unit2_at_head (b0 b1 : Byte) (rest : List Byte) (h0 : _is_2_byte_cp_start b0 = true)
    (h1 : _is_continuation_byte b1 = true) :
    _is_valid_codepoint_at (b0 :: b1 :: rest) 0 = true ∧
    _get_codepoint_byte_count (b0 :: b1 :: rest) 0 = 2 ∧
    _get_codepoint_at (b0 :: b1 :: rest) 0 = ((b0.val &&& 0x1F) <<< 6) + (b1.val &&& 0x3F) := by
  have hx := (lead_byte_exclusive b0).1 h0
  have hbc : _get_codepoint_byte_count (b0 :: b1 :: rest) 0 = 2 := by
    simp [_get_codepoint_byte_count, byteAt, h0, hx]
  have hr : List.range (2 - 1) = [0] := rfl
  refine ⟨?_, hbc, ?_⟩
  · simp [_is_valid_codepoint_at, hbc, hr, byteAt, h1]
  · simp [_get_codepoint_at, hbc, _get_codepoint_at_loop, byteAt, h1]

theorem unit3_at_head (b0 b1 b2 : Byte) (rest : List Byte) (h0 : _is_3_byte_cp_start b0 = true)
    (h1 : _is_continuation_byte b1 = true) (h2 : _is_continuation_byte b2 = true) :
    _is_valid_codepoint_at (b0 :: b1 :: b2 :: rest) 0 = true ∧
    _get_codepoint_byte_count (b0 :: b1 :: b2 :: rest) 0 = 3 ∧
    _get_codepoint_at (b0 :: b1 :: b2 :: rest) 0
      = ((((b0.val &&& 0x0F) <<< 6) + (b1.val &&& 0x3F)) <<< 6) + (b2.val &&& 0x3F) := by
  have hx := (lead_byte_exclusive b0).2.1 h0
  have hbc : _get_codepoint_byte_count (b0 :: b1 :: b2 :: rest) 0 = 3 := by
    simp [_get_codepoint_byte_count, byteAt, h0, hx]
  have hr : List.range (3 - 1) = [0, 1] := rfl
  refine ⟨?_, hbc, ?_⟩
  · simp [_is_valid_codepoint_at, hbc, hr, byteAt, h1, h2]
  · simp [_get_codepoint_at, hbc, _get_codepoint_at_loop, byteAt, h1, h2]

theorem unit4_at_head (b0 b1 b2 b3 : Byte) (rest : List Byte)
    (h0 : _is_4_byte_cp_start b0 = true) (h1 : _is_continuation_byte b1 = true)
    (h2 : _is_continuation_byte b2 = true) (h3 : _is_continuation_byte b3 = true) :
    _is_valid_codepoint_at (b0 :: b1 :: b2 :: b3 :: rest) 0 = true ∧
    _get_codepoint_byte_count (b0 :: b1 :: b2 :: b3 :: rest) 0 = 4 ∧
    _get_codepoint_at (b0 :: b1 :: b2 :: b3 :: rest) 0
      = ((((((b0.val &&& 0x07) <<< 6) + (b1.val &&& 0x3F)) <<< 6) + (b2.val &&& 0x3F)) <<< 6)
          + (b3.val &&& 0x3F) := by
  have hx := (lead_byte_exclusive b0).2.2.1 h0
  have hbc : _get_codepoint_byte_count (b0 :: b1 :: b2 :: b3 :: rest) 0 = 4 := by
    simp [_get_codepoint_byte_count, byteAt, h0, hx]
  have hr : List.range (4 - 1) = [0, 1, 2] := rfl
  refine ⟨?_, hbc, ?_⟩
  · simp [_is_valid_codepoint_at, hbc, hr, byteAt, h1, h2, h3]
  · simp [_get_codepoint_at, hbc, _get_codepoint_at_loop, byteAt, h1, h2, h3]

/-! ## C1 -/

set_option maxRecDepth 100000 in
theorem single_byte_payload : ∀ c : Fin 128,
    _is_1_byte_cp (toByte c.val) = true ∧ (toByte c.val).val = c.val := by
  decide

set_option maxRecDepth 100000 in
theorem cont_byte_payload : ∀ x : Fin 64,
    _is_continuation_byte (toByte (0x80 ||| x.val)) = true ∧
    (toByte (0x80 ||| x.val)).val &&& 0x3F = x.val := by
  decide

set_option maxRecDepth 100000 in
theorem lead2_payload : ∀ y : Fin 32,
    _is_2_byte_cp_start (toByte (0xC0 ||| y.val)) = true ∧
    (toByte (0xC0 ||| y.val)).val &&& 0x1F = y.val := by
  decide

set_option maxRecDepth 100000 in
theorem lead3_payload : ∀ y : Fin 16,
    _is_3_byte_cp_start (toByte (0xE0 ||| y.val)) = true ∧
    (toByte (0xE0 ||| y.val)).val &&& 0x0F = y.val := by
  decide

set_option maxRecDepth 100000 in
theorem lead4_payload : ∀ y : Fin 8,
    _is_4_byte_cp_start (toByte (0xF0 ||| y.val)) = true ∧
    (toByte (0xF0 ||| y.val)).val &&& 0x07 = y.val := by
  decide

theorem single_byte_payload_nat (c : Nat) (h : c < 128) :
    _is_1_byte_cp (toByte c) = true ∧ (toByte c).val = c :=
  single_byte_payload ⟨c, h⟩

theorem cont_byte_payload_nat (x : Nat) (h : x < 64) :
    _is_continuation_byte (toByte (0x80 ||| x)) = true ∧
    (toByte (0x80 ||| x)).val &&& 0x3F = x :=
  cont_byte_payload ⟨x, h⟩

theorem lead2_payload_nat (y : Nat) (h : y < 32) :
    _is_2_byte_cp_start (toByte (0xC0 ||| y)) = true ∧
    (toByte (0xC0 ||| y)).val &&& 0x1F = y :=
  lead2_payload ⟨y, h⟩

theorem lead3_payload_nat (y : Nat) (h : y < 16) :
    _is_3_byte_cp_start (toByte (0xE0 ||| y)) = true ∧
    (toByte (0xE0 ||| y)).val &&& 0x0F = y :=
  lead3_payload ⟨y, h⟩

theorem lead4_payload_nat (y : Nat) (h : y < 8) :
    _is_4_byte_cp_start (toByte (0xF0 ||| y)) = true ∧
    (toByte (0xF0 ||| y)).val &&& 0x07 = y :=
  lead4_payload ⟨y, h⟩

theorem and_63 (c : Nat) : c &&& 0x3F = c % 64 := Nat.and_pow_two_sub_one_eq_mod c 6

theorem shr_6 (c : Nat) : c >>> 6 = c / 64 := Nat.shiftRight_eq_div_pow c 6

theorem shr_12 (c : Nat) : c >>> 12 = c / 4096 := Nat.shiftRight_eq_div_pow c 12

theorem shr_18 (c : Nat) : c >>> 18 = c / 262144 := Nat.shiftRight_eq_div_pow c 18

theorem shl_6 (c : Nat) : c <<< 6 = c * 64 := Nat.shiftLeft_eq c 6

/-- The bytes the encoder writes for a codepoint up to 0x10FFFF are, at the head
of any string, one valid unit that decodes to that codepoint. -/
theorem encoded_unit_at_head (c : Nat) (hc : c ≤ 0x10FFFF) (rest : List Byte) :
    _is_valid_codepoint_at (codepoints_to_utf8_step c ++ rest) 0 = true ∧
    _get_codepoint_byte_count (codepoints_to_utf8_step c ++ rest) 0
      = (codepoints_to_utf8_step c).length ∧
    _get_codepoint_at (codepoints_to_utf8_step c ++ rest) 0 = c := by
  unfold codepoints_to_utf8_step
  by_cases h1 : c ≤ 0x7F
  · have hp := single_byte_payload_nat c (by omega)
    simp only [h1, if_true, List.singleton_append, List.length_singleton]
    have hu := unit1_at_head (toByte c) rest hp.1
    exact ⟨hu.1, hu.2.1, hu.2.2.trans hp.2⟩
  · by_cases h2 : c ≤ 0x7FF
    · have hl := lead2_payload_nat (c >>> 6) (by rw [shr_6]; omega)
      have hx := cont_byte_payload_nat (c &&& 0x3F) (by rw [and_63]; omega)
      simp only [h1, h2, if_true, if_false, List.cons_append, List.nil_append,
        List.length_cons, List.length_nil]
      have hu := unit2_at_head _ _ rest hl.1 hx.1
      refine ⟨hu.1, hu.2.1, hu.2.2.trans ?_⟩
      rw [hl.2, hx.2]
      simp only [shl_6, shr_6, and_63]
      omega
    · by_cases h3 : c ≤ 0xFFFF
      · have hl := lead3_payload_nat (c >>> 12) (by rw [shr_12]; omega)
        have hx1 := cont_byte_payload_nat ((c >>> 6) &&& 0x3F) (by rw [and_63]; omega)
        have hx0 := cont_byte_payload_nat (c &&& 0x3F) (by rw [and_63]; omega)
        simp only [h1, h2, h3, if_true, if_false, List.cons_append, List.nil_append,
          List.length_cons, List.length_nil]
        have hu := unit3_at_head _ _ _ rest hl.1 hx1.1 hx0.1
        refine ⟨hu.1, hu.2.1, hu.2.2.trans ?_⟩
        rw [hl.2, hx1.2, hx0.2]
        simp only [shl_6, shr_6, shr_12, and_63]
        omega
      · have hl := lead4_payload_nat (c >>> 18) (by rw [shr_18]; omega)
        have hx2 := cont_byte_payload_nat ((c >>> 12) &&& 0x3F) (by rw [and_63]; omega)
        have hx1 := cont_byte_payload_nat ((c >>> 6) &&& 0x3F) (by rw [and_63]; omega)
        have hx0 := cont_byte_payload_nat (c &&& 0x3F) (by rw [and_63]; omega)
        simp only [h1, h2, h3, hc, if_true, if_false, List.cons_append, List.nil_append,
          List.length_cons, List.length_nil]
        have hu := unit4_at_head _ _ _ _ rest hl.1 hx2.1 hx1.1 hx0.1
        refine ⟨hu.1, hu.2.1, hu.2.2.trans ?_⟩
        rw [hl.2, hx2.2, hx1.2, hx0.2]
        simp only [shl_6, shr_6, shr_12, shr_18, and_63]
        omega

theorem encode_foldl_acc (cs : List Nat) : ∀ (acc : List Byte),
    cs.foldl (fun oss codepoint => oss ++ codepoints_to_utf8_step codepoint) acc
      = acc ++ cs.foldl (fun oss codepoint => oss ++ codepoints_to_utf8_step codepoint) [] := by
  induction cs with
  | nil => intro acc; simp
  | cons c cs ih =>
    intro acc
    simp only [List.foldl_cons, List.nil_append]
    rw [ih (acc ++ _), ih (codepoints_to_utf8_step c), List.append_assoc]

theorem codepoints_to_utf8_cons (c : Nat) (cs : List Nat) :
    codepoints_to_utf8 (c :: cs) = codepoints_to_utf8_step c ++ codepoints_to_utf8 cs := by
  unfold codepoints_to_utf8
  rw [List.foldl_cons, encode_foldl_acc, List.nil_append]

/-- C1: decoding the encoding of any sequence of codepoints in `[0, 0x10FFFF]`
(surrogates included) gives the sequence back. -/
theorem decode_encode_round_trip (cs : List Nat) (h : ∀ c ∈ cs, c ≤ 0x10FFFF) :
    utf8_to_codepoints (codepoints_to_utf8 cs) = cs := by
  induction cs with
  | nil => rfl
  | cons c cs ih =>
    have hc : c ≤ 0x10FFFF := h c (List.mem_cons_self c cs)
    have hu := encoded_unit_at_head c hc (codepoints_to_utf8 cs)
    rw [codepoints_to_utf8_cons, utf8_to_codepoints_cons _ hu.1, hu.2.2, hu.2.1,
      List.drop_left, ih (fun x hx => h x (List.mem_cons_of_mem c hx))]

/-- C1 at a sequence with one codepoint of each encoded length, a surrogate and
the two ends of the range. -/
theorem decode_encode_round_trip_witness :
    (∀ c ∈ [0, 0x41, 0xE7, 0x666E, 0xD800, 0x1F0A1, 0x10FFFF], c ≤ 0x10FFFF) ∧
    utf8_to_codepoints (codepoints_to_utf8 [0, 0x41, 0xE7, 0x666E, 0xD800, 0x1F0A1, 0x10FFFF])
      = [0, 0x41, 0xE7, 0x666E, 0xD800, 0x1F0A1, 0x10FFFF] :=
  ⟨by decide, decode_encode_round_trip _ (by decide)⟩

/-! ## The shape of a valid unit -/

theorem byte_count_head (b0 : Byte) (rest : List Byte) :
    _get_codepoint_byte_count (b0 :: rest) 0
      = if _is_1_byte_cp b0 then 1
        else if _is_2_byte_cp_start b0 then 2
        else if _is_3_byte_cp_start b0 then 3
        else if _is_4_byte_cp_start b0 then 4
        else 0 := by
  simp [_get_codepoint_byte_count, byteAt]

/-- A string with a valid codepoint at offset 0 starts with one of the four
well-formed byte patterns. -/
theorem valid_head_cases (t : List Byte) (h : _is_valid_codepoint_at t 0 = true) :
    (∃ b0 rest, t = b0 :: rest ∧ _is_1_byte_cp b0 = true) ∨
    (∃ b0 b1 rest, t = b0 :: b1 :: rest ∧ _is_2_byte_cp_start b0 = true ∧
      _is_continuation_byte b1 = true) ∨
    (∃ b0 b1 b2 rest, t = b0 :: b1 :: b2 :: rest ∧ _is_3_byte_cp_start b0 = true ∧
      _is_continuation_byte b1 = true ∧ _is_continuation_byte b2 = true) ∨
    (∃ b0 b1 b2 b3 rest, t = b0 :: b1 :: b2 :: b3 :: rest ∧ _is_4_byte_cp_start b0 = true ∧
      _is_continuation_byte b1 = true ∧ _is_continuation_byte b2 = true ∧
      _is_continuation_byte b3 = true) := by
  have hfit := valid_at_fits t 0 h
  cases t with
  | nil => simp [_is_valid_codepoint_at] at h
  | cons b0 r =>
    rw [byte_count_head] at hfit
    unfold _is_valid_codepoint_at at h
    rw [byte_count_head] at h
    by_cases h1 : _is_1_byte_cp b0 = true
    · exact Or.inl ⟨b0, r, rfl, h1⟩
    · simp only [h1, if_false] at hfit h
      by_cases h2 : _is_2_byte_cp_start b0 = true
      · simp only [h2, if_true] at hfit h
        cases r with
        | nil => simp at hfit
        | cons b1 rest =>
          have hr : List.range (2 - 1) = [0] := rfl
          simp [hr, byteAt] at h
          exact Or.inr (Or.inl ⟨b0, b1, rest, rfl, h2, h⟩)
      · simp only [h2, if_false] at hfit h
        by_cases h3 : _is_3_byte_cp_start b0 = true
        · simp only [h3, if_true] at hfit h
          match r, hfit, h with
          | [], hfit, _ => simp at hfit
          | [_], hfit, _ => simp at hfit
          | b1 :: b2 :: rest, _, h =>
            have hr : List.range (3 - 1) = [0, 1] := rfl
            simp [hr, byteAt] at h
            exact Or.inr (Or.inr (Or.inl ⟨b0, b1, b2, rest, rfl, h3, h.1, h.2⟩))
        · simp only [h3, if_false] at hfit h
          by_cases h4 : _is_4_byte_cp_start b0 = true
          · simp only [h4, if_true] at hfit h
            match r, hfit, h with
            | [], hfit, _ => simp at hfit
            | [_], hfit, _ => simp at hfit
            | [_, _], hfit, _ => simp at hfit
            | b1 :: b2 :: b3 :: rest, _, h =>
              have hr : List.range (4 - 1) = [0, 1, 2] := rfl
              simp [hr, byteAt] at h
              exact Or.inr (Or.inr (Or.inr
                ⟨b0, b1, b2, b3, rest, rfl, h4, h.1, h.2.1, h.2.2⟩))
          · simp [h4] at hfit

/-! ## C5 -/

set_option maxRecDepth 100000 in
theorem byte_rebuild : ∀ b : Byte,
    (_is_1_byte_cp b = true → b.val < 128 ∧ toByte b.val = b) ∧
    (_is_2_byte_cp_start b = true →
      b.val &&& 0x1F < 32 ∧ toByte (0xC0 ||| (b.val &&& 0x1F)) = b) ∧
    (_is_3_byte_cp_start b = true →
      b.val &&& 0x0F < 16 ∧ toByte (0xE0 ||| (b.val &&& 0x0F)) = b) ∧
    (_is_4_byte_cp_start b = true →
      b.val &&& 0x07 < 8 ∧ toByte (0xF0 ||| (b.val &&& 0x07)) = b) ∧
    (_is_continuation_byte b = true →
      b.val &&& 0x3F < 64 ∧ toByte (0x80 ||| (b.val &&& 0x3F)) = b) := by
  decide

theorem codepoints_to_utf8_step_length (c : Nat) :
    (codepoints_to_utf8_step c).length
      = if c ≤ 0x7F then 1 else if c ≤ 0x7FF then 2 else if c ≤ 0xFFFF then 3
        else if c ≤ 0x10FFFF then 4 else 0 := by
  unfold codepoints_to_utf8_step
  split_ifs <;> rfl

/-- A valid unit whose codepoint the encoder writes in the same number of bytes
is reproduced byte for byte by the encoder. -/
theorem reencode_unit (t : List Byte) (h : _is_valid_codepoint_at t 0 = true)
    (hmin : (codepoints_to_utf8_step (_get_codepoint_at t 0)).length
      = _get_codepoint_byte_count t 0) :
    codepoints_to_utf8_step (_get_codepoint_at t 0) = t.take (_get_codepoint_byte_count t 0) := by
  rw [codepoints_to_utf8_step_length] at hmin
  rcases valid_head_cases t h with ⟨b0, rest, rfl, h0⟩ | ⟨b0, b1, rest, rfl, h0, h1⟩ |
    ⟨b0, b1, b2, rest, rfl, h0, h1, h2⟩ | ⟨b0, b1, b2, b3, rest, rfl, h0, h1, h2, h3⟩
  · have hu := unit1_at_head b0 rest h0
    obtain ⟨hlt, hb0⟩ := (byte_rebuild b0).1 h0
    rw [hu.2.2, hu.2.1]
    have hc : b0.val ≤ 0x7F := by omega
    simp [codepoints_to_utf8_step, hc, hb0]
  · have hu := unit2_at_head b0 b1 rest h0 h1
    obtain ⟨hy, hb0⟩ := (byte_rebuild b0).2.1 h0
    obtain ⟨hx, hb1⟩ := (byte_rebuild b1).2.2.2.2 h1
    rw [hu.2.2, hu.2.1] at hmin
    rw [hu.2.2, hu.2.1]
    generalize b0.val &&& 0x1F = y at *
    generalize b1.val &&& 0x3F = x at *
    rw [shl_6] at hmin ⊢
    have hc1 : ¬ y * 64 + x ≤ 0x7F := by split_ifs at hmin <;> omega
    have hc2 : y * 64 + x ≤ 0x7FF := by omega
    have e1 : (y * 64 + x) >>> 6 = y := by rw [shr_6]; omega
    have e0 : (y * 64 + x) &&& 0x3F = x := by rw [and_63]; omega
    unfold codepoints_to_utf8_step
    rw [if_neg hc1, if_pos hc2, e1, e0, hb0, hb1]
    rfl
  · have hu := unit3_at_head b0 b1 b2 rest h0 h1 h2
    obtain ⟨hy, hb0⟩ := (byte_rebuild b0).2.2.1 h0
    obtain ⟨hx1, hb1⟩ := (byte_rebuild b1).2.2.2.2 h1
    obtain ⟨hx0, hb2⟩ := (byte_rebuild b2).2.2.2.2 h2
    rw [hu.2.2, hu.2.1] at hmin
    rw [hu.2.2, hu.2.1]
    generalize b0.val &&& 0x0F = y at *
    generalize b1.val &&& 0x3F = x1 at *
    generalize b2.val &&& 0x3F = x0 at *
    simp only [shl_6] at hmin ⊢
    have hc1 : ¬ (y * 64 + x1) * 64 + x0 ≤ 0x7F := by split_ifs at hmin <;> omega
    have hc2 : ¬ (y * 64 + x1) * 64 + x0 ≤ 0x7FF := by split_ifs at hmin <;> omega
    have hc3 : (y * 64 + x1) * 64 + x0 ≤ 0xFFFF := by omega
    have e2 : ((y * 64 + x1) * 64 + x0) >>> 12 = y := by rw [shr_12]; omega
    have e1 : (((y * 64 + x1) * 64 + x0) >>> 6) &&& 0x3F = x1 := by rw [and_63, shr_6]; omega
    have e0 : ((y * 64 + x1) * 64 + x0) &&& 0x3F = x0 := by rw [and_63]; omega
    unfold codepoints_to_utf8_step
    rw [if_neg hc1, if_neg hc2, if_pos hc3, e2, e1, e0, hb0, hb1, hb2]
    rfl
  · have hu := unit4_at_head b0 b1 b2 b3 rest h0 h1 h2 h3
    obtain ⟨hy, hb0⟩ := (byte_rebuild b0).2.2.2.1 h0
    obtain ⟨hx2, hb1⟩ := (byte_rebuild b1).2.2.2.2 h1
    obtain ⟨hx1, hb2⟩ := (byte_rebuild b2).2.2.2.2 h2
    obtain ⟨hx0, hb3⟩ := (byte_rebuild b3).2.2.2.2 h3
    rw [hu.2.2, hu.2.1] at hmin
    rw [hu.2.2, hu.2.1]
    generalize b0.val &&& 0x07 = y at *
    generalize b1.val &&& 0x3F = x2 at *
    generalize b2.val &&& 0x3F = x1 at *
    generalize b3.val &&& 0x3F = x0 at *
    simp only [shl_6] at hmin ⊢
    have hc1 : ¬ ((y * 64 + x2) * 64 + x1) * 64 + x0 ≤ 0x7F := by split_ifs at hmin <;> omega
    have hc2 : ¬ ((y * 64 + x2) * 64 + x1) * 64 + x0 ≤ 0x7FF := by split_ifs at hmin <;> omega
    have hc3 : ¬ ((y * 64 + x2) * 64 + x1) * 64 + x0 ≤ 0xFFFF := by split_ifs at hmin <;> omega
    have hc4 : ((y * 64 + x2) * 64 + x1) * 64 + x0 ≤ 0x10FFFF := by
      split_ifs at hmin
      omega
    have e3 : (((y * 64 + x2) * 64 + x1) * 64 + x0) >>> 18 = y := by rw [shr_18]; omega
    have e2 : ((((y * 64 + x2) * 64 + x1) * 64 + x0) >>> 12) &&& 0x3F = x2 := by
      rw [and_63, shr_12]; omega
    have e1 : ((((y * 64 + x2) * 64 + x1) * 64 + x0) >>> 6) &&& 0x3F = x1 := by
      rw [and_63, shr_6]; omega
    have e0 : (((y * 64 + x2) * 64 + x1) * 64 + x0) &&& 0x3F = x0 := by rw [and_63]; omega
    unfold codepoints_to_utf8_step
    rw [if_neg hc1, if_neg hc2, if_neg hc3, if_pos hc4, e3, e2, e1, e0, hb0, hb1, hb2, hb3]
    rfl

theorem reencode_from (s : List Byte)
    (hmin : ∀ p, _is_valid_codepoint_at s p = true →
      (codepoints_to_utf8_step (_get_codepoint_at s p)).length = _get_codepoint_byte_count s p) :
    ∀ (f p : Nat), s.length ≤ p + f → is_valid_utf8_loop s f p = true →
      codepoints_to_utf8 (utf8_to_codepoints_loop s f p []) = s.drop p := by
  intro f
  induction f with
  | zero =>
    intro p hf _
    rw [List.drop_eq_nil_of_le (by omega)]
    rfl
  | succ f ih =>
    intro p hf hv
    by_cases hp : p < s.length
    · unfold is_valid_utf8_loop at hv
      unfold utf8_to_codepoints_loop
      simp only [hp, if_true] at hv ⊢
      by_cases hva : _is_valid_codepoint_at s p = true
      · have hfit := valid_at_fits s p hva
        simp only [hva, Bool.not_true, if_false, Bool.false_eq_true] at hv
        simp only [hva, if_true, List.nil_append]
        rw [utf8_to_codepoints_loop_acc, List.singleton_append, codepoints_to_utf8_cons,
          ih _ (by omega) hv]
        have hunit := reencode_unit (s.drop p) (by rw [valid_at_drop]; exact hva)
          (by rw [codepoint_at_drop, byte_count_drop]; exact hmin p hva)
        rw [codepoint_at_drop, byte_count_drop] at hunit
        simp only [Nat.add_zero] at hunit
        rw [hunit, ← List.drop_drop, List.take_append_drop]
      · simp [hva] at hv
    · rw [List.drop_eq_nil_of_le (by omega)]
      unfold utf8_to_codepoints_loop
      simp [hp]
      rfl

/-- C5 as stated fails: the overlong two-byte form of U+0000 is accepted by
`is_valid_utf8`, decodes to codepoint 0, and is encoded as the single byte 0. -/
theorem reencode_counterexample :
    ¬ ∀ s : List Byte, is_valid_utf8 s = true →
        codepoints_to_utf8 (utf8_to_codepoints s) = s := by
  intro h
  exact absurd (h [0xC0, 0x80] (by decide)) (by decide)

/-- C5 amended: if `s` is valid according to `is_valid_utf8` and every codepoint
in it occupies as many bytes as the encoder writes for its value (no overlong
form, no value above 0x10FFFF), then encoding the decoded codepoints gives `s`. -/
theorem reencode_shortest_form (s : List Byte) (hv : is_valid_utf8 s = true)
    (hmin : ∀ p, _is_valid_codepoint_at s p = true →
      (codepoints_to_utf8_step (_get_codepoint_at s p)).length = _get_codepoint_byte_count s p) :
    codepoints_to_utf8 (utf8_to_codepoints s) = s := by
  have := reencode_from s hmin s.length 0 (by omega) hv
  simpa [utf8_to_codepoints] using this

/-- C5 amended, at `"ça"`: both codepoints are in shortest form. -/
theorem reencode_shortest_form_witness :
    is_valid_utf8 [0xC3, 0xA7, 0x61] = true ∧
    codepoints_to_utf8 (utf8_to_codepoints [0xC3, 0xA7, 0x61]) = [0xC3, 0xA7, 0x61] := by
  have hmin : ∀ p, _is_valid_codepoint_at [0xC3, 0xA7, 0x61] p = true →
      (codepoints_to_utf8_step (_get_codepoint_at [0xC3, 0xA7, 0x61] p)).length
        = _get_codepoint_byte_count [0xC3, 0xA7, 0x61] p := by
    intro p hp
    have hfit := valid_at_fits _ p hp
    have hlt : p < 3 := by
      have := hfit.2
      simp only [List.length_cons, List.length_nil] at this
      omega
    interval_cases p
    · decide
    · exact absurd hp (by decide)
    · decide
  exact ⟨by decide, reencode_shortest_form [0xC3, 0xA7, 0x61] (by decide) hmin⟩

/-! ## C6 -/

set_option maxRecDepth 100000 in
theorem pattern_eq_mask : ∀ b : Byte,
    _is_1_byte_cp b = (b.val / 128 == 0b0) ∧
    _is_2_byte_cp_start b = (b.val / 32 == 0b110) ∧
    _is_3_byte_cp_start b = (b.val / 16 == 0b1110) ∧
    _is_4_byte_cp_start b = (b.val / 8 == 0b11110) ∧
    _is_continuation_byte b = (b.val / 64 == 0b10) := by
  decide

theorem valid_at_cont (s : List Byte) (p : Nat) (h : _is_valid_codepoint_at s p = true)
    (k : Nat) (hk1 : 1 ≤ k) (hk2 : k < _get_codepoint_byte_count s p) :
    _is_continuation_byte (byteAt s (p + k)) = true := by
  unfold _is_valid_codepoint_at at h
  split at h
  · simp at h
  · simp only [] at h
    split at h
    · simp at h
    · rw [List.all_eq_true] at h
      have := h (k - 1) (List.mem_range.mpr (by omega))
      rw [show p + 1 + (k - 1) = p + k by omega] at this
      exact this

theorem is_valid_utf8_loop_drop (s : List Byte) (k : Nat) : ∀ (f p : Nat),
    is_valid_utf8_loop (s.drop k) f p = is_valid_utf8_loop s f (k + p) := by
  intro f
  induction f with
  | zero => intro p; rfl
  | succ f ih =>
    intro p
    unfold is_valid_utf8_loop
    rw [valid_at_drop, byte_count_drop, List.length_drop, ih]
    by_cases h : k + p < s.length
    · have h2 : p < s.length - k := by omega
      simp only [h, h2, if_true, Nat.add_assoc]
    · have h2 : ¬ p < s.length - k := by omega
      simp only [h, h2, if_false]

/-- A string that starts with a valid codepoint is valid exactly when what follows
that codepoint is. -/
theorem is_valid_utf8_cons (s : List Byte) (h : _is_valid_codepoint_at s 0 = true) :
    is_valid_utf8 s = is_valid_utf8 (s.drop (_get_codepoint_byte_count s 0)) := by
  have hfit := valid_at_fits s 0 h
  unfold is_valid_utf8
  obtain ⟨n, hn⟩ : ∃ n, s.length = n + 1 := ⟨s.length - 1, by omega⟩
  rw [hn]
  conv => lhs; unfold is_valid_utf8_loop
  have h0 : 0 < s.length := by omega
  rw [if_pos h0]
  simp only [h, Bool.not_true, Bool.false_eq_true, if_false, Nat.zero_add]
  rw [is_valid_utf8_loop_drop, List.length_drop, hn, Nat.add_zero]
  apply is_valid_utf8_loop_fuel_irrel <;> omega

theorem is_valid_utf8_head (s : List Byte) (hne : s ≠ []) (h : is_valid_utf8 s = true) :
    _is_valid_codepoint_at s 0 = true := by
  unfold is_valid_utf8 at h
  have hlen : 0 < s.length := List.length_pos.mpr hne
  obtain ⟨n, hn⟩ : ∃ n, s.length = n + 1 := ⟨s.length - 1, by omega⟩
  rw [hn] at h
  unfold is_valid_utf8_loop at h
  rw [if_pos hlen] at h
  by_cases hv : _is_valid_codepoint_at s 0 = true
  · exact hv
  · simp [hv] at h

/-- A well-formed unit of the specification, at the head of a string, is a valid
codepoint of the code that takes up exactly the unit. -/
theorem well_formed_unit_at_head (u rest : List Byte) (h : well_formed_unit u = true) :
    _is_valid_codepoint_at (u ++ rest) 0 = true ∧
    _get_codepoint_byte_count (u ++ rest) 0 = u.length := by
  match u, h with
  | [b0], h =>
    simp only [well_formed_unit] at h
    have hu := unit1_at_head b0 rest (by rw [(pattern_eq_mask b0).1]; exact h)
    exact ⟨hu.1, hu.2.1⟩
  | [b0, b1], h =>
    simp only [well_formed_unit, Bool.and_eq_true] at h
    have hu := unit2_at_head b0 b1 rest (by rw [(pattern_eq_mask b0).2.1]; exact h.1)
      (by rw [(pattern_eq_mask b1).2.2.2.2]; exact h.2)
    exact ⟨hu.1, hu.2.1⟩
  | [b0, b1, b2], h =>
    simp only [well_formed_unit, Bool.and_eq_true] at h
    have hu := unit3_at_head b0 b1 b2 rest (by rw [(pattern_eq_mask b0).2.2.1]; exact h.1.1)
      (by rw [(pattern_eq_mask b1).2.2.2.2]; exact h.1.2)
      (by rw [(pattern_eq_mask b2).2.2.2.2]; exact h.2)
    exact ⟨hu.1, hu.2.1⟩
  | [b0, b1, b2, b3], h =>
    simp only [well_formed_unit, Bool.and_eq_true] at h
    have hu := unit4_at_head b0 b1 b2 b3 rest
      (by rw [(pattern_eq_mask b0).2.2.2.1]; exact h.1.1.1)
      (by rw [(pattern_eq_mask b1).2.2.2.2]; exact h.1.1.2)
      (by rw [(pattern_eq_mask b2).2.2.2.2]; exact h.1.2)
      (by rw [(pattern_eq_mask b3).2.2.2.2]; exact h.2)
    exact ⟨hu.1, hu.2.1⟩
  | [], h => simp [well_formed_unit] at h
  | _ :: _ :: _ :: _ :: _ :: _, h => simp [well_formed_unit] at h

/-- A string with a valid codepoint at offset 0 is a well-formed unit of the
specification, of the length the code reports, followed by the rest. -/
theorem head_is_well_formed_unit (t : List Byte) (h : _is_valid_codepoint_at t 0 = true) :
    well_formed_unit (t.take (_get_codepoint_byte_count t 0)) = true := by
  rcases valid_head_cases t h with ⟨b0, rest, rfl, h0⟩ | ⟨b0, b1, rest, rfl, h0, h1⟩ |
    ⟨b0, b1, b2, rest, rfl, h0, h1, h2⟩ | ⟨b0, b1, b2, b3, rest, rfl, h0, h1, h2, h3⟩
  · rw [(unit1_at_head b0 rest h0).2.1]
    rw [(pattern_eq_mask b0).1] at h0
    simpa [well_formed_unit] using h0
  · rw [(unit2_at_head b0 b1 rest h0 h1).2.1]
    rw [(pattern_eq_mask b0).2.1] at h0
    rw [(pattern_eq_mask b1).2.2.2.2] at h1
    simp only [List.take, well_formed_unit, Bool.and_eq_true]
    exact ⟨h0, h1⟩
  · rw [(unit3_at_head b0 b1 b2 rest h0 h1 h2).2.1]
    rw [(pattern_eq_mask b0).2.2.1] at h0
    rw [(pattern_eq_mask b1).2.2.2.2] at h1
    rw [(pattern_eq_mask b2).2.2.2.2] at h2
    simp only [List.take, well_formed_unit, Bool.and_eq_true]
    exact ⟨⟨h0, h1⟩, h2⟩
  · rw [(unit4_at_head b0 b1 b2 b3 rest h0 h1 h2 h3).2.1]
    rw [(pattern_eq_mask b0).2.2.2.1] at h0
    rw [(pattern_eq_mask b1).2.2.2.2] at h1
    rw [(pattern_eq_mask b2).2.2.2.2] at h2
    rw [(pattern_eq_mask b3).2.2.2.2] at h3
    simp only [List.take, well_formed_unit, Bool.and_eq_true]
    exact ⟨⟨⟨h0, h1⟩, h2⟩, h3⟩

theorem units_of_valid : ∀ (n : Nat) (s : List Byte), s.length ≤ n → is_valid_utf8 s = true →
    ∃ us : List (List Byte), (∀ u ∈ us, well_formed_unit u = true) ∧ s = us.flatten := by
  intro n
  induction n with
  | zero =>
    intro s hn _
    have : s = [] := List.length_eq_zero.mp (by omega)
    exact ⟨[], by simp, by simp [this]⟩
  | succ n ih =>
    intro s hn hv
    by_cases hne : s = []
    · exact ⟨[], by simp, by simp [hne]⟩
    · have h0 := is_valid_utf8_head s hne hv
      have hfit := valid_at_fits s 0 h0
      rw [is_valid_utf8_cons s h0] at hv
      obtain ⟨us, hus, hflat⟩ := ih (s.drop (_get_codepoint_byte_count s 0))
        (by rw [List.length_drop]; omega) hv
      refine ⟨s.take (_get_codepoint_byte_count s 0) :: us, ?_, ?_⟩
      · intro u hu
        rcases List.mem_cons.mp hu with rfl | hu
        · exact head_is_well_formed_unit s h0
        · exact hus u hu
      · rw [List.flatten_cons, ← hflat, List.take_append_drop]

theorem valid_of_units (us : List (List Byte)) (h : ∀ u ∈ us, well_formed_unit u = true) :
    is_valid_utf8 us.flatten = true := by
  induction us with
  | nil => rfl
  | cons u us ih =>
    have hu := well_formed_unit_at_head u us.flatten (h u (List.mem_cons_self u us))
    rw [List.flatten_cons, is_valid_utf8_cons _ hu.1, hu.2, List.drop_left]
    exact ih (fun x hx => h x (List.mem_cons_of_mem u hx))

theorem truncated_unit_invalid (b : Byte) (cs : List Byte)
    (hb : (b.val / 32 = 0b110 ∧ cs.length < 1) ∨ (b.val / 16 = 0b1110 ∧ cs.length < 2) ∨
      (b.val / 8 = 0b11110 ∧ cs.length < 3)) :
    ∀ (n : Nat) (pre : List Byte), pre.length ≤ n → is_valid_utf8 (pre ++ b :: cs) = false := by
  have hnc : _is_continuation_byte b = false := by
    have hm := pattern_eq_mask b
    have hx := (lead_byte_exclusive b).2.2.2
    cases hcb : _is_continuation_byte b with
    | false => rfl
    | true =>
      have := hx hcb
      rw [hm.2.1, hm.2.2.1, hm.2.2.2.1] at this
      rcases hb with h | h | h
      · simp [h.1] at this
      · simp [h.1] at this
      · simp [h.1] at this
  have hbc : cs.length + 1 < _get_codepoint_byte_count (b :: cs) 0 := by
    have hm := pattern_eq_mask b
    rw [byte_count_head]
    rcases hb with h | h | h
    · have h2 : _is_2_byte_cp_start b = true := by rw [hm.2.1]; simp [h.1]
      have h1 := (lead_byte_exclusive b).1 h2
      simp only [h1, h2, if_true, if_false, Bool.false_eq_true]
      omega
    · have h3 : _is_3_byte_cp_start b = true := by rw [hm.2.2.1]; simp [h.1]
      have h1 := (lead_byte_exclusive b).2.1 h3
      simp only [h1.1, h1.2, h3, if_true, if_false, Bool.false_eq_true]
      omega
    · have h4 : _is_4_byte_cp_start b = true := by rw [hm.2.2.2.1]; simp [h.1]
      have h1 := (lead_byte_exclusive b).2.2.1 h4
      simp only [h1.1, h1.2.1, h1.2.2, h4, if_true, if_false, Bool.false_eq_true]
      omega
  intro n
  induction n with
  | zero =>
    intro pre hn
    have hpre : pre = [] := List.length_eq_zero.mp (by omega)
    subst hpre
    cases hv : is_valid_utf8 ([] ++ b :: cs) with
    | false => rfl
    | true =>
      have h0 := is_valid_utf8_head _ (by simp) hv
      have hfit := valid_at_fits _ 0 h0
      simp only [List.nil_append, List.length_cons] at hfit
      omega
  | succ n ih =>
    intro pre hn
    cases hv : is_valid_utf8 (pre ++ b :: cs) with
    | false => rfl
    | true =>
      have h0 := is_valid_utf8_head _ (by simp) hv
      have hfit := valid_at_fits _ 0 h0
      by_cases hpre : pre = []
      · subst hpre
        simp only [List.nil_append, List.length_cons] at hfit
        omega
      · have hlen : 0 < pre.length := List.length_pos.mpr hpre
        by_cases hk : _get_codepoint_byte_count (pre ++ b :: cs) 0 ≤ pre.length
        · rw [is_valid_utf8_cons _ h0, List.drop_append_of_le_length hk] at hv
          have := ih (pre.drop (_get_codepoint_byte_count (pre ++ b :: cs) 0))
            (by rw [List.length_drop]; omega)
          rw [this] at hv
          exact absurd hv (by simp)
        · have hc := valid_at_cont _ 0 h0 pre.length (by omega) (by omega)
          have hbyte : byteAt (pre ++ b :: cs) (0 + pre.length) = b := by
            rw [Nat.zero_add]
            have := byteAt_drop (pre ++ b :: cs) pre.length 0
            rw [List.drop_left, Nat.add_zero] at this
            rw [← this]
            rfl
          rw [hbyte, hnc] at hc
          exact absurd hc (by simp)

/-- C6: `is_valid_utf8(s)` holds exactly when `s` is a concatenation of zero or
more well-formed units (one byte `0xxxxxxx`, or a lead byte `110xxxxx` /
`1110xxxx` / `11110xxx` followed by exactly 1 / 2 / 3 bytes `10xxxxxx`); the
empty sequence is valid; and a sequence that ends in a lead byte followed by
fewer bytes than its unit needs is not valid. -/
theorem is_valid_utf8_iff_units (s : List Byte) :
    (is_valid_utf8 s = true ↔
      ∃ us : List (List Byte), (∀ u ∈ us, well_formed_unit u = true) ∧ s = us.flatten) ∧
    is_valid_utf8 [] = true ∧
    (∀ (b : Byte) (cs : List Byte),
      ((b.val / 32 = 0b110 ∧ cs.length < 1) ∨ (b.val / 16 = 0b1110 ∧ cs.length < 2) ∨
        (b.val / 8 = 0b11110 ∧ cs.length < 3)) →
      is_valid_utf8 (s ++ b :: cs) = false) := by
  refine ⟨⟨fun hv => units_of_valid s.length s (Nat.le_refl _) hv, ?_⟩, rfl, ?_⟩
  · rintro ⟨us, hus, rfl⟩
    exact valid_of_units us hus
  · intro b cs hb
    exact truncated_unit_invalid b cs hb s.length s (Nat.le_refl _)

/-! ## C9 -/

/-- A unit that is one whole valid codepoint keeps its validity, length and value
when more bytes follow it. -/
theorem unit_prefix (u rest : List Byte) (hv : _is_valid_codepoint_at u 0 = true)
    (hl : _get_codepoint_byte_count u 0 = u.length) :
    _is_valid_codepoint_at (u ++ rest) 0 = true ∧
    _get_codepoint_byte_count (u ++ rest) 0 = u.length ∧
    _get_codepoint_at (u ++ rest) 0 = _get_codepoint_at u 0 := by
  rcases valid_head_cases u hv with ⟨b0, r, rfl, h0⟩ | ⟨b0, b1, r, rfl, h0, h1⟩ |
    ⟨b0, b1, b2, r, rfl, h0, h1, h2⟩ | ⟨b0, b1, b2, b3, r, rfl, h0, h1, h2, h3⟩
  · have hu := unit1_at_head b0 r h0
    have hw := unit1_at_head b0 (r ++ rest) h0
    rw [hl] at hu
    simp only [List.cons_append]
    exact ⟨hw.1, hw.2.1.trans hu.2.1.symm, hw.2.2.trans hu.2.2.symm⟩
  · have hu := unit2_at_head b0 b1 r h0 h1
    have hw := unit2_at_head b0 b1 (r ++ rest) h0 h1
    rw [hl] at hu
    simp only [List.cons_append]
    exact ⟨hw.1, hw.2.1.trans hu.2.1.symm, hw.2.2.trans hu.2.2.symm⟩
  · have hu := unit3_at_head b0 b1 b2 r h0 h1 h2
    have hw := unit3_at_head b0 b1 b2 (r ++ rest) h0 h1 h2
    rw [hl] at hu
    simp only [List.cons_append]
    exact ⟨hw.1, hw.2.1.trans hu.2.1.symm, hw.2.2.trans hu.2.2.symm⟩
  · have hu := unit4_at_head b0 b1 b2 b3 r h0 h1 h2 h3
    have hw := unit4_at_head b0 b1 b2 b3 (r ++ rest) h0 h1 h2 h3
    rw [hl] at hu
    simp only [List.cons_append]
    exact ⟨hw.1, hw.2.1.trans hu.2.1.symm, hw.2.2.trans hu.2.2.symm⟩

theorem is_valid_utf8_after_units (units : List (List Byte)) (rest : List Byte)
    (h : ∀ u ∈ units, _is_valid_codepoint_at u 0 = true ∧
      _get_codepoint_byte_count u 0 = u.length) :
    is_valid_utf8 (units.flatten ++ rest) = is_valid_utf8 rest := by
  induction units with
  | nil => rfl
  | cons u us ih =>
    have hu := h u (List.mem_cons_self u us)
    have hp := unit_prefix u (us.flatten ++ rest) hu.1 hu.2
    rw [List.flatten_cons, List.append_assoc, is_valid_utf8_cons _ hp.1, hp.2.1, List.drop_left]
    exact ih (fun x hx => h x (List.mem_cons_of_mem u hx))

/-- The character walk passes over combining codepoints that are not at offset 0
without counting them. -/
theorem nth_loop_skips_combining (wc : Nat → Int) (s : List Byte) (n : Nat)
    (units : List (List Byte)) :
    ∀ (rest : List Byte) (f p c : Nat), 0 < p → s.drop p = units.flatten ++ rest →
      (∀ u ∈ units, _is_valid_codepoint_at u 0 = true ∧
        _get_codepoint_byte_count u 0 = u.length ∧
        _is_combining_char wc (_get_codepoint_at u 0) = true) →
      s.length ≤ p + f →
      _get_nth_character_byte_pos_loop wc s n f p c
        = _get_nth_character_byte_pos_loop wc s n f (p + units.flatten.length) c := by
  induction units with
  | nil => intro rest f p c _ _ _ _; simp
  | cons u us ih =>
    intro rest f p c hp hdrop hunits hf
    have hu := hunits u (List.mem_cons_self u us)
    rw [List.flatten_cons, List.append_assoc] at hdrop
    have hpre := unit_prefix u (us.flatten ++ rest) hu.1 hu.2.1
    rw [← hdrop, valid_at_drop, byte_count_drop, codepoint_at_drop, Nat.add_zero] at hpre
    have hfit := valid_at_fits s p hpre.1
    obtain ⟨f', rfl⟩ : ∃ f', f = f' + 1 := ⟨f - 1, by omega⟩
    have hdrop2 : s.drop (p + u.length) = us.flatten ++ rest := by
      rw [← List.drop_drop, hdrop, List.drop_left]
    have hstep := ih rest f' (p + u.length) c (by omega) hdrop2
      (fun x hx => hunits x (List.mem_cons_of_mem u hx)) (by omega)
    conv => lhs; unfold _get_nth_character_byte_pos_loop
    have hp0 : p ≠ 0 := by omega
    simp only [hfit.2, hpre.1, hpre.2.2, hu.2.2, hp0, if_true, Bool.not_true, false_or,
      Bool.false_eq_true, if_false, hpre.2.1]
    have hlt : p < s.length := by omega
    rw [if_pos hlt, hstep, List.flatten_cons, List.length_append, ← Nat.add_assoc]
    apply nth_loop_fuel_irrel <;> omega

theorem nth_loop_at_end (wc : Nat → Int) (s : List Byte) (n f p c : Nat) (hp : s.length ≤ p) :
    _get_nth_character_byte_pos_loop wc s n f p c = s.length := by
  cases f with
  | zero => rfl
  | succ f =>
    unfold _get_nth_character_byte_pos_loop
    rw [if_neg (by omega)]

/-- The second character of a string that begins with a run of combining
codepoints starts right after the run. -/
theorem nth_one_after_leading_run (wc : Nat → Int) (units : List (List Byte))
    (rest : List Byte) (hk : units ≠ [])
    (hunits : ∀ u ∈ units, _is_valid_codepoint_at u 0 = true ∧
      _get_codepoint_byte_count u 0 = u.length ∧
      _is_combining_char wc (_get_codepoint_at u 0) = true)
    (hv : is_valid_utf8 (units.flatten ++ rest) = true)
    (hrest : rest = [] ∨ _is_combining_char wc (_get_codepoint_at rest 0) = false) :
    _get_nth_character_byte_pos wc (units.flatten ++ rest) 1 0 = units.flatten.length := by
  have hvrest : is_valid_utf8 rest = true := by
    rw [← is_valid_utf8_after_units units rest (fun u hu => ⟨(hunits u hu).1, (hunits u hu).2.1⟩)]
    exact hv
  cases units with
  | nil => exact absurd rfl hk
  | cons u us =>
    have hu := hunits u (List.mem_cons_self u us)
    have hfu := valid_at_fits u 0 hu.1
    generalize hs : (u :: us).flatten ++ rest = s
    have hs1 : s = u ++ (us.flatten ++ rest) := by
      rw [← hs, List.flatten_cons, List.append_assoc]
    have hpre := unit_prefix u (us.flatten ++ rest) hu.1 hu.2.1
    rw [← hs1] at hpre
    have hlen : s.length = (u :: us).flatten.length + rest.length := by
      rw [← hs, List.length_append]
    have hrun : (u :: us).flatten.length = u.length + us.flatten.length := by
      rw [List.flatten_cons, List.length_append]
    unfold _get_nth_character_byte_pos
    obtain ⟨f, hf⟩ : ∃ f, s.length = f + 1 := ⟨s.length - 1, by omega⟩
    have hdrop : s.drop (0 + u.length) = us.flatten ++ rest := by
      rw [hs1, Nat.zero_add, List.drop_left]
    have hskip := nth_loop_skips_combining wc s 1 us rest f (0 + u.length) 1 (by omega) hdrop
      (fun x hx => hunits x (List.mem_cons_of_mem u hx)) (by omega)
    rw [hf]
    conv => lhs; unfold _get_nth_character_byte_pos_loop
    have h0 : 0 < s.length := by omega
    rw [if_pos h0]
    simp only [hpre.1, if_true, true_or, Nat.zero_add, gt_iff_lt, Nat.lt_irrefl, if_false,
      hpre.2.1]
    rw [Nat.zero_add] at hskip
    rw [hskip, ← hrun]
    rcases hrest with hnil | hnc
    · rw [nth_loop_at_end wc s 1 f _ 1 (by rw [hlen, hnil]; simp)]
      rw [hlen, hnil]
      simp
    · by_cases hnil : rest = []
      · rw [nth_loop_at_end wc s 1 f _ 1 (by rw [hlen, hnil]; simp)]
        rw [hlen, hnil]
        simp
      · have hrl : 0 < rest.length := List.length_pos.mpr hnil
        have hvh := is_valid_utf8_head rest hnil hvrest
        have hdr : s.drop (u :: us).flatten.length = rest := by
          rw [← hs, List.drop_left]
        have hva : _is_valid_codepoint_at s (u :: us).flatten.length = true := by
          have := valid_at_drop s (u :: us).flatten.length 0
          rw [hdr, Nat.add_zero] at this
          rw [← this]
          exact hvh
        have hcp : _get_codepoint_at s (u :: us).flatten.length = _get_codepoint_at rest 0 := by
          have := codepoint_at_drop s (u :: us).flatten.length 0
          rw [hdr, Nat.add_zero] at this
          exact this.symm
        obtain ⟨f', rfl⟩ : ∃ f', f = f' + 1 := ⟨f - 1, by omega⟩
        have hlt : (u :: us).flatten.length < s.length := by omega
        generalize (u :: us).flatten.length = L at hva hcp hlt ⊢
        unfold _get_nth_character_byte_pos_loop
        rw [if_pos hlt]
        simp [hva, hcp, hnc]

/-- C9: for a valid string of at most `npos` bytes made of a run of one or more
units, each a whole combining codepoint, followed by `rest` that is empty or
starts with a codepoint that is not combining: the first character is exactly
the run, and the substring from character 1 on is exactly `rest`. -/
theorem leading_combining_run_is_one_character (wc : Nat → Int) (units : List (List Byte))
    (rest : List Byte) (hk : units ≠ [])
    (hunits : ∀ u ∈ units, _is_valid_codepoint_at u 0 = true ∧
      _get_codepoint_byte_count u 0 = u.length ∧
      _is_combining_char wc (_get_codepoint_at u 0) = true)
    (hv : is_valid_utf8 (units.flatten ++ rest) = true)
    (hrest : rest = [] ∨ _is_combining_char wc (_get_codepoint_at rest 0) = false)
    (hlen : (units.flatten ++ rest).length ≤ npos) :
    utf8_substring wc (units.flatten ++ rest) 0 1 = units.flatten ∧
    utf8_substring wc (units.flatten ++ rest) 1 npos = rest := by
  have hone := nth_one_after_leading_run wc units rest hk hunits hv hrest
  have hne : units.flatten ++ rest ≠ [] := by
    cases units with
    | nil => exact absurd rfl hk
    | cons u us =>
      have hfu := valid_at_fits u 0 (hunits u (List.mem_cons_self u us)).1
      intro hnil
      have := congrArg List.length hnil
      simp only [List.flatten_cons, List.length_append, List.length_nil] at this
      omega
  have hpos : 0 < (units.flatten ++ rest).length := List.length_pos.mpr hne
  have hzero := nth_zero_at_char_start wc (units.flatten ++ rest) 0 hpos
    (is_valid_utf8_head _ hne hv) (Or.inl rfl)
  constructor
  · unfold utf8_substring
    simp only []
    rw [hzero, hone, if_neg (by omega)]
    have h1 : (1 : Nat) ≠ npos := by decide
    simp only [h1, ne_eq, not_false_eq_true, if_true, substr, Nat.sub_zero, List.drop_zero]
    exact List.take_left _ _
  · unfold utf8_substring
    simp only []
    rw [hone]
    by_cases hge : units.flatten.length ≥ (units.flatten ++ rest).length
    · rw [if_pos hge]
      rw [List.length_append] at hge
      exact (List.length_eq_zero.mp (by omega)).symm
    · rw [if_neg hge]
      simp only [ne_eq, not_true_eq_false, if_false, substr, List.drop_left]
      rw [List.length_append] at hlen
      exact List.take_of_length_le (by omega)

/-- C9 at U+0301 U+0308 followed by `"G"`, with a table that gives the two marks
width 0: the first character is the four bytes of the two marks. -/
theorem leading_combining_run_is_one_character_witness :
    utf8_substring (fun c => if c = 0x301 ∨ c = 0x308 then 0 else 1)
        [0xCC, 0x81, 0xCC, 0x88, 0x47] 0 1 = [0xCC, 0x81, 0xCC, 0x88] ∧
    utf8_substring (fun c => if c = 0x301 ∨ c = 0x308 then 0 else 1)
        [0xCC, 0x81, 0xCC, 0x88, 0x47] 1 npos = [0x47] :=
  leading_combining_run_is_one_character (fun c => if c = 0x301 ∨ c = 0x308 then 0 else 1)
    [[0xCC, 0x81], [0xCC, 0x88]] [0x47] (by decide) (by decide) (by decide)
    (Or.inr (by decide)) (by decide)

/-! ## C7 -/

theorem count_codepoints_loop_succ (s : List Byte) (f p c : Nat) :
    count_codepoints_loop s (f + 1) p c
      = if p < s.length then
          (if _get_codepoint_byte_count s p = 0 then count_codepoints_loop s f (p + 1) c
           else count_codepoints_loop s f (p + _get_codepoint_byte_count s p) (c + 1))
        else c := rfl

theorem start_loop_succ (s : List Byte) (pos f p c : Nat) :
    utf8_cp_substring_start_loop s pos (f + 1) p c
      = if c < pos ∧ p < s.length then
          (if _get_codepoint_byte_count s p = 0 then
            utf8_cp_substring_start_loop s pos f (p + 1) c
           else utf8_cp_substring_start_loop s pos f (p + _get_codepoint_byte_count s p) (c + 1))
        else p := rfl

theorem count_loop_succ (s : List Byte) (count f p c : Nat) :
    utf8_cp_substring_count_loop s count (f + 1) p c
      = if c < count ∧ p < s.length then
          (if _get_codepoint_byte_count s p = 0 then
            utf8_cp_substring_count_loop s count f (p + 1) c
           else utf8_cp_substring_count_loop s count f (p + _get_codepoint_byte_count s p) (c + 1))
        else p := rfl

theorem count_codepoints_loop_at_end (s : List Byte) (f p c : Nat) (hp : s.length ≤ p) :
    count_codepoints_loop s f p c = c := by
  cases f with
  | zero => rfl
  | succ f => rw [count_codepoints_loop_succ, if_neg (by omega)]

theorem count_codepoints_loop_le (s : List Byte) : ∀ (f p c : Nat),
    count_codepoints_loop s f p c ≤ c + f := by
  intro f
  induction f with
  | zero => intro p c; simp [count_codepoints_loop]
  | succ f ih =>
    intro p c
    rw [count_codepoints_loop_succ]
    split_ifs
    · have := ih (p + 1) c; omega
    · have := ih (p + _get_codepoint_byte_count s p) (c + 1); omega
    · omega

theorem count_codepoints_loop_drop (s : List Byte) (k : Nat) : ∀ (f p c : Nat),
    count_codepoints_loop (s.drop k) f p c = count_codepoints_loop s f (k + p) c := by
  intro f
  induction f with
  | zero => intro p c; rfl
  | succ f ih =>
    intro p c
    rw [count_codepoints_loop_succ, count_codepoints_loop_succ, byte_count_drop,
      List.length_drop, ih, ih]
    by_cases h : k + p < s.length
    · have h2 : p < s.length - k := by omega
      simp only [h, h2, if_true, Nat.add_assoc]
    · have h2 : ¬ p < s.length - k := by omega
      simp only [h, h2, if_false]

theorem count_loop_ge (s : List Byte) (count : Nat) : ∀ (f p c : Nat),
    p ≤ utf8_cp_substring_count_loop s count f p c := by
  intro f
  induction f with
  | zero => intro p c; simp [utf8_cp_substring_count_loop]
  | succ f ih =>
    intro p c
    rw [count_loop_succ]
    split_ifs
    · exact Nat.le_trans (Nat.le_succ p) (ih _ _)
    · exact Nat.le_trans (Nat.le_add_right p _) (ih _ _)
    · exact Nat.le_refl p

/-- After the start walk has passed `pos` codepoints, the codepoints still ahead
are those that were ahead before, less the ones passed. -/
theorem count_after_start_loop (s : List Byte) (pos : Nat) : ∀ (f p c : Nat),
    s.length ≤ p + f →
    count_codepoints_loop s f (utf8_cp_substring_start_loop s pos f p c) 0
      = count_codepoints_loop s f p 0 - (pos - c) := by
  intro f
  induction f with
  | zero => intro p c _; simp [count_codepoints_loop]
  | succ f ih =>
    intro p c hf
    rw [start_loop_succ]
    by_cases hcond : c < pos ∧ p < s.length
    · rw [if_pos hcond, count_codepoints_loop_succ s f p 0, if_pos hcond.2]
      by_cases hk : _get_codepoint_byte_count s p = 0
      · rw [if_pos hk, if_pos hk]
        have hge := start_loop_ge s pos f (p + 1) c
        rw [count_codepoints_loop_fuel_irrel s (f + 1) f _ 0 (by omega) (by omega)]
        exact ih (p + 1) c (by omega)
      · rw [if_neg hk, if_neg hk]
        have hge := start_loop_ge s pos f (p + _get_codepoint_byte_count s p) (c + 1)
        rw [count_codepoints_loop_fuel_irrel s (f + 1) f _ 0 (by omega) (by omega),
          ih _ (c + 1) (by omega), count_codepoints_loop_acc s f _ (0 + 1)]
        omega
    · rw [if_neg hcond]
      by_cases hp : p < s.length
      · have : pos - c = 0 := by omega
        rw [this, Nat.sub_zero]
      · rw [count_codepoints_loop_at_end s (f + 1) p 0 (by omega)]
        simp

theorem byte_count_take (t : List Byte) (m q : Nat) (h : q < m) :
    _get_codepoint_byte_count (t.take m) q = _get_codepoint_byte_count t q := by
  unfold _get_codepoint_byte_count
  have hb : byteAt (t.take m) q = byteAt t q := by
    simp [byteAt, List.getElem?_take_of_lt h]
  rw [hb, List.length_take]
  by_cases hq : q ≥ t.length
  · have h2 : q ≥ min m t.length := by omega
    simp [hq, h2]
  · have h2 : ¬ q ≥ min m t.length := by omega
    simp [hq, h2]

/-- Counting codepoints in the slice `s[b, e)`, where `e` is where the count walk
of `utf8_cp_substring` stops, runs in step with that walk in `s`. -/
theorem count_in_slice (s : List Byte) (count b e : Nat) : ∀ (f p c acc : Nat),
    b ≤ p → utf8_cp_substring_count_loop s count f p c = e →
    count_codepoints_loop ((s.drop b).take (e - b)) f (p - b) acc
      = acc + min (count - c) (count_codepoints_loop s f p 0) := by
  intro f
  induction f with
  | zero => intro p c acc _ _; simp [count_codepoints_loop]
  | succ f ih =>
    intro p c acc hbp he
    rw [count_loop_succ] at he
    by_cases hcond : c < count ∧ p < s.length
    · rw [if_pos hcond] at he
      rw [count_codepoints_loop_succ, count_codepoints_loop_succ s f p 0, if_pos hcond.2]
      by_cases hk : _get_codepoint_byte_count s p = 0
      · rw [if_pos hk] at he
        have hge := count_loop_ge s count f (p + 1) c
        rw [he] at hge
        have hlt : p - b < ((s.drop b).take (e - b)).length := by
          rw [List.length_take, List.length_drop]; omega
        rw [if_pos hlt, byte_count_take _ _ _ (by omega), byte_count_drop,
          show b + (p - b) = p by omega, if_pos hk, if_pos hk,
          show p - b + 1 = p + 1 - b by omega]
        exact ih (p + 1) c acc (by omega) he
      · rw [if_neg hk] at he
        have hge := count_loop_ge s count f (p + _get_codepoint_byte_count s p) (c + 1)
        rw [he] at hge
        have hlt : p - b < ((s.drop b).take (e - b)).length := by
          rw [List.length_take, List.length_drop]; omega
        rw [if_pos hlt, byte_count_take _ _ _ (by omega), byte_count_drop,
          show b + (p - b) = p by omega, if_neg hk, if_neg hk,
          show p - b + _get_codepoint_byte_count s p
            = p + _get_codepoint_byte_count s p - b by omega,
          ih _ (c + 1) (acc + 1) (by omega) he, count_codepoints_loop_acc s f _ (0 + 1)]
        omega
    · rw [if_neg hcond] at he
      have hnl : ¬ p - b < ((s.drop b).take (e - b)).length := by
        rw [List.length_take, List.length_drop]; omega
      rw [count_codepoints_loop_succ, if_neg hnl]
      by_cases hp : p < s.length
      · have : count - c = 0 := by omega
        rw [this]; simp
      · rw [count_codepoints_loop_at_end s (f + 1) p 0 (by omega)]
        simp

/-- C7: for a string of at most `npos` bytes (every `std::string`), the number of
codepoints in `utf8_cp_substring(s, pos, count)` is `count`, clamped to the
codepoints that remain after the first `pos`: `min(count, count_codepoints(s) - pos)`
with truncated subtraction; for `count = npos` that is all that remain. -/
theorem utf8_cp_substring_codepoint_count (s : List Byte) (pos count : Nat)
    (hs : s.length ≤ npos) :
    count_codepoints (utf8_cp_substring s pos count)
      = min count (count_codepoints s - pos) := by
  have hstart := count_after_start_loop s pos s.length 0 0 (by omega)
  rw [Nat.sub_zero] at hstart
  have hu : utf8_cp_substring s pos count
      = if utf8_cp_substring_start_loop s pos s.length 0 0 ≥ s.length then []
        else substr s (utf8_cp_substring_start_loop s pos s.length 0 0)
          (if count = npos then npos
           else utf8_cp_substring_count_loop s count s.length
              (utf8_cp_substring_start_loop s pos s.length 0 0) 0
              - utf8_cp_substring_start_loop s pos s.length 0 0) := rfl
  rw [hu]
  clear hu
  generalize utf8_cp_substring_start_loop s pos s.length 0 0 = b at *
  have hcnt : count_codepoints s = count_codepoints_loop s s.length 0 0 := rfl
  rw [hcnt, ← hstart]
  by_cases hb : b ≥ s.length
  · rw [if_pos hb, count_codepoints_loop_at_end s _ b 0 hb]
    simp
    rfl
  · rw [if_neg hb]
    by_cases hc : count = npos
    · rw [if_pos hc, hc]
      unfold substr
      rw [List.take_of_length_le (by rw [List.length_drop]; omega)]
      unfold count_codepoints
      rw [count_codepoints_loop_drop, Nat.add_zero, List.length_drop,
        count_codepoints_loop_fuel_irrel s (s.length - b) s.length b 0 (by omega) (by omega)]
      have := count_codepoints_loop_le s s.length b 0
      omega
    · rw [if_neg hc]
      unfold substr
      have hslice := count_in_slice s count b
        (utf8_cp_substring_count_loop s count s.length b 0) s.length b 0 0 (Nat.le_refl b) rfl
      rw [Nat.sub_self, Nat.zero_add, Nat.sub_zero] at hslice
      rw [← hslice]
      unfold count_codepoints
      apply count_codepoints_loop_fuel_irrel
      · omega
      · rw [List.length_take, List.length_drop]; omega

/-- C7 at the invalid string `0x80 a 0xC3 A 0xFF`: the substring of one codepoint
from codepoint 1 is the truncated-looking lead `0xC3` with the byte it swallows. -/
theorem utf8_cp_substring_codepoint_count_witness :
    ([0x80, 0x61, 0xC3, 0x41, 0xFF] : List Byte).length ≤ npos ∧
    count_codepoints (utf8_cp_substring [0x80, 0x61, 0xC3, 0x41, 0xFF] 1 1)
      = min 1 (count_codepoints [0x80, 0x61, 0xC3, 0x41, 0xFF] - 1) :=
  ⟨by decide, utf8_cp_substring_codepoint_count [0x80, 0x61, 0xC3, 0x41, 0xFF] 1 1 (by decide)⟩

/-! ## C20 -/

theorem codepoints_to_utf8_step_out_of_range (c : Nat) (h : ¬ c ≤ 0x10FFFF) :
    codepoints_to_utf8_step c = [] := by
  unfold codepoints_to_utf8_step
  rw [if_neg (by omega), if_neg (by omega), if_neg (by omega), if_neg h]

/-- C20: whatever values the encoder is given, in range or not, its output is
accepted by `is_valid_utf8`. -/
theorem encoder_output_is_valid (cs : List Nat) :
    is_valid_utf8 (codepoints_to_utf8 cs) = true := by
  induction cs with
  | nil => rfl
  | cons c cs ih =>
    rw [codepoints_to_utf8_cons]
    by_cases hc : c ≤ 0x10FFFF
    · have hu := encoded_unit_at_head c hc (codepoints_to_utf8 cs)
      rw [is_valid_utf8_cons _ hu.1, hu.2.1, List.drop_left]
      exact ih
    · rw [codepoints_to_utf8_step_out_of_range c hc, List.nil_append]
      exact ih

/-! ## C15 -/

/-- C15: the encoder writes 1, 2, 3 or 4 bytes for a value up to 0x7F, 0x7FF,
0xFFFF or 0x10FFFF and nothing for a larger one, so the output length is the sum
of these byte counts, and removing the values above 0x10FFFF from the input does
not change the output. -/
theorem encoder_lengths_and_dropping (cs : List Nat) :
    (codepoints_to_utf8 cs).length = (cs.map encoded_length).sum ∧
    codepoints_to_utf8 cs = codepoints_to_utf8 (cs.filter fun c => decide (c ≤ 0x10FFFF)) := by
  induction cs with
  | nil => exact ⟨rfl, rfl⟩
  | cons c cs ih =>
    constructor
    · rw [codepoints_to_utf8_cons, List.length_append, codepoints_to_utf8_step_length, ih.1,
        List.map_cons, List.sum_cons]
      rfl
    · by_cases hc : c ≤ 0x10FFFF
      · rw [List.filter_cons_of_pos (by simpa using hc), codepoints_to_utf8_cons,
          codepoints_to_utf8_cons, ← ih.2]
      · rw [List.filter_cons_of_neg (by simpa using hc), codepoints_to_utf8_cons,
          codepoints_to_utf8_step_out_of_range c hc, List.nil_append]
        exact ih.2

/-! ## C14 -/

theorem decode_loop_mem (s : List Byte) : ∀ (f p : Nat) (r : List Nat) (c : Nat),
    c ∈ utf8_to_codepoints_loop s f p r → c ∈ r ∨ ∃ q, c = _get_codepoint_at s q := by
  intro f
  induction f with
  | zero => intro p r c h; exact Or.inl h
  | succ f ih =>
    intro p r c h
    unfold utf8_to_codepoints_loop at h
    split_ifs at h
    · rcases ih _ _ c h with hm | hq
      · rcases List.mem_append.mp hm with h1 | h2
        · exact Or.inl h1
        · exact Or.inr ⟨p, by simpa using h2⟩
      · exact Or.inr hq
    · exact ih _ _ c h
    · exact Or.inl h

/-- C14 as stated fails: the bytes F7 BF BF BF pass the structural checks and
decode to 0x1FFFFF, above 0x10FFFF. -/
theorem decoded_range_counterexample :
    ¬ ∀ (s : List Byte), ∀ c ∈ utf8_to_codepoints s, c ≤ 0x10FFFF := by
  intro h
  exact absurd (h [0xF7, 0xBF, 0xBF, 0xBF] 0x1FFFFF (by decide)) (by decide)

/-- C14 amended: every codepoint produced by decoding is a 21-bit value, in
`[0, 0x1FFFFF]`. -/
theorem decoded_codepoints_21_bits (s : List Byte) (c : Nat) (h : c ∈ utf8_to_codepoints s) :
    c ≤ 0x1FFFFF := by
  rcases decode_loop_mem s s.length 0 [] c h with hm | ⟨q, rfl⟩
  · simp at hm
  · have := codepoint_at_lt s q
    omega

/-- C14 amended, at the largest value the decoder can produce. -/
theorem decoded_codepoints_21_bits_witness :
    0x1FFFFF ∈ utf8_to_codepoints [0x41, 0xF7, 0xBF, 0xBF, 0xBF] ∧ 0x1FFFFF ≤ 0x1FFFFF :=
  ⟨by decide, decoded_codepoints_21_bits [0x41, 0xF7, 0xBF, 0xBF, 0xBF] 0x1FFFFF (by decide)⟩

/-! ## C12 -/

theorem byte_count_singleton (b : Byte) (rest : List Byte) :
    _get_codepoint_byte_count (b :: rest) 0 = _get_codepoint_byte_count [b] 0 := by
  rw [byte_count_head, byte_count_head]

/-- Counting from the first byte: a byte that declares no length is stepped over,
any other byte counts one codepoint and the count goes on after its declared length. -/
theorem count_codepoints_cons (b : Byte) (rest : List Byte) :
    count_codepoints (b :: rest)
      = if _get_codepoint_byte_count [b] 0 = 0 then count_codepoints rest
        else 1 + count_codepoints (rest.drop (_get_codepoint_byte_count [b] 0 - 1)) := by
  unfold count_codepoints
  rw [List.length_cons, count_codepoints_loop_succ, if_pos (by simp), byte_count_singleton]
  by_cases hk : _get_codepoint_byte_count [b] 0 = 0
  · rw [if_pos hk, if_pos hk]
    have := count_codepoints_loop_drop (b :: rest) 1 rest.length 0 0
    rw [List.drop_one, List.tail_cons] at this
    rw [this]
  · rw [if_neg hk, if_neg hk, count_codepoints_loop_acc]
    have := count_codepoints_loop_drop (b :: rest) (_get_codepoint_byte_count [b] 0)
      (rest.drop (_get_codepoint_byte_count [b] 0 - 1)).length 0 0
    have hd : (b :: rest).drop (_get_codepoint_byte_count [b] 0)
        = rest.drop (_get_codepoint_byte_count [b] 0 - 1) := by
      obtain ⟨n, hn⟩ : ∃ n, _get_codepoint_byte_count [b] 0 = n + 1 :=
        ⟨_get_codepoint_byte_count [b] 0 - 1, by omega⟩
      rw [hn]
      rfl
    rw [hd] at this
    rw [this]
    simp only [Nat.zero_add, Nat.add_zero]
    congr 1
    apply count_codepoints_loop_fuel_irrel
    · simp only [List.length_cons]; omega
    · simp only [List.length_cons, List.length_drop]; omega

theorem count_codepoints_append_of_valid : ∀ (n : Nat) (a b : List Byte), a.length ≤ n →
    is_valid_utf8 a = true →
    count_codepoints (a ++ b) = count_codepoints a + count_codepoints b := by
  intro n
  induction n with
  | zero =>
    intro a b hn _
    have : a = [] := List.length_eq_zero.mp (by omega)
    subst this
    simp [count_codepoints, count_codepoints_loop]
  | succ n ih =>
    intro a b hn hv
    cases a with
    | nil => simp [count_codepoints, count_codepoints_loop]
    | cons b0 r =>
      have h0 := is_valid_utf8_head _ (by simp) hv
      have hfit := valid_at_fits _ 0 h0
      rw [is_valid_utf8_cons _ h0] at hv
      rw [byte_count_singleton] at hfit hv
      have hk : _get_codepoint_byte_count [b0] 0 ≠ 0 := by omega
      have hd : (b0 :: r).drop (_get_codepoint_byte_count [b0] 0)
          = r.drop (_get_codepoint_byte_count [b0] 0 - 1) := by
        obtain ⟨m, hm⟩ : ∃ m, _get_codepoint_byte_count [b0] 0 = m + 1 :=
          ⟨_get_codepoint_byte_count [b0] 0 - 1, by omega⟩
        rw [hm]
        rfl
      rw [hd] at hv
      simp only [List.length_cons] at hfit hn
      rw [List.cons_append, count_codepoints_cons, count_codepoints_cons, if_neg hk, if_neg hk,
        List.drop_append_of_le_length (by omega),
        ih _ b (by rw [List.length_drop]; omega) hv]
      omega

/-- C12: if `a` is valid UTF-8 (and `b` is any byte sequence, valid or not), the
codepoints of `a ++ b` are those of `a` plus those of `b`, and its size is the sum
of the two sizes. -/
theorem concat_adds_codepoint_counts (a b : List Byte) (ha : is_valid_utf8 a = true) :
    count_codepoints (a ++ b) = count_codepoints a + count_codepoints b ∧
    (a ++ b).length = a.length + b.length :=
  ⟨count_codepoints_append_of_valid a.length a b (Nat.le_refl _) ha, List.length_append a b⟩

/-- C12 at `"ça"` and the euro sign: 2 + 1 codepoints, 3 + 3 bytes. -/
theorem concat_adds_codepoint_counts_witness :
    is_valid_utf8 [0xC3, 0xA7, 0x61] = true ∧
    count_codepoints ([0xC3, 0xA7, 0x61] ++ [0xE2, 0x82, 0xAC]) = 2 + 1 ∧
    ([0xC3, 0xA7, 0x61] ++ [0xE2, 0x82, 0xAC] : List Byte).length = 3 + 3 :=
  ⟨by decide, concat_adds_codepoint_counts [0xC3, 0xA7, 0x61] [0xE2, 0x82, 0xAC] (by decide)⟩

/-! ## C13 -/

set_option maxRecDepth 100000 in
theorem declared_length_eq : ∀ b : Byte,
    declared_length b = _get_codepoint_byte_count [b] 0 := by
  decide

theorem lead_scan_count_skip : ∀ (k : Nat) (l : List Byte),
    lead_scan_count k l = lead_scan_count 0 (l.drop k) := by
  intro k
  induction k with
  | zero => intro l; rfl
  | succ k ih =>
    intro l
    cases l with
    | nil => rfl
    | cons b rest =>
      rw [List.drop_succ_cons, ← ih rest]
      rfl

theorem count_codepoints_eq_lead_scan : ∀ (n : Nat) (s : List Byte), s.length ≤ n →
    count_codepoints s = lead_scan_count 0 s := by
  intro n
  induction n with
  | zero =>
    intro s hn
    have : s = [] := List.length_eq_zero.mp (by omega)
    subst this
    rfl
  | succ n ih =>
    intro s hn
    cases s with
    | nil => rfl
    | cons b rest =>
      simp only [List.length_cons] at hn
      rw [count_codepoints_cons, ← declared_length_eq]
      show _ = if declared_length b = 0 then lead_scan_count 0 rest
        else 1 + lead_scan_count (declared_length b - 1) rest
      rw [lead_scan_count_skip (declared_length b - 1) rest, ih rest (by omega),
        ih (rest.drop (declared_length b - 1)) (by rw [List.length_drop]; omega)]

/-- What `count_codepoints` computes on any string: the count of the scan by first
bytes, which counts every byte that declares a length and passes over the bytes of
that length without looking at them. -/
theorem count_codepoints_is_lead_scan (s : List Byte) :
    count_codepoints s = lead_scan_count 0 s :=
  count_codepoints_eq_lead_scan s.length s (Nat.le_refl _)

theorem count_decode_lockstep_of_starts (s : List Byte)
    (h : ∀ p, _get_codepoint_byte_count s p ≠ 0 → _is_valid_codepoint_at s p = true) :
    ∀ (f p n : Nat) (acc : List Nat),
      count_codepoints_loop s f p n + acc.length
        = (utf8_to_codepoints_loop s f p acc).length + n := by
  intro f
  induction f with
  | zero => intro p n acc; simp [count_codepoints_loop, utf8_to_codepoints_loop, Nat.add_comm]
  | succ f ih =>
    intro p n acc
    unfold count_codepoints_loop utf8_to_codepoints_loop
    by_cases hp : p < s.length
    · rw [if_pos hp, if_pos hp]
      by_cases hk : _get_codepoint_byte_count s p = 0
      · have hnv : ¬ _is_valid_codepoint_at s p = true := by
          intro hva
          have := valid_at_fits s p hva
          omega
        simp only [hk, if_true]
        rw [if_neg hnv]
        exact ih (p + 1) n acc
      · have hva := h p hk
        simp only [hk, if_false]
        rw [if_pos hva]
        have := ih (p + _get_codepoint_byte_count s p) (n + 1) (acc ++ [_get_codepoint_at s p])
        simp only [List.length_append, List.length_singleton] at this
        omega
    · rw [if_neg hp, if_neg hp]
      omega

/-- Where the code meets C13: on every string in which each byte that declares a
length begins a valid codepoint, `count_codepoints` is the number of decoded
codepoints. -/
theorem count_codepoints_agrees_where_starts_valid (s : List Byte)
    (h : ∀ p, _get_codepoint_byte_count s p ≠ 0 → _is_valid_codepoint_at s p = true) :
    count_codepoints s = (utf8_to_codepoints s).length := by
  have := count_decode_lockstep_of_starts s h s.length 0 0 []
  simpa [count_codepoints, utf8_to_codepoints] using this

/-- C13, the code at the failing input `E2 41 42 43` (a three-byte lead followed by
`"ABC"`): no valid codepoint starts at offset 0, the decoder skips that byte and
decodes `A`, `B`, `C`, but `count_codepoints` counts the malformed unit, steps over
`A` and `B` with it, and returns 2. -/
theorem count_codepoints_at_malformed_lead :
    _is_valid_codepoint_at [0xE2, 0x41, 0x42, 0x43] 0 = false ∧
    utf8_to_codepoints [0xE2, 0x41, 0x42, 0x43] = [0x41, 0x42, 0x43] ∧
    count_codepoints [0xE2, 0x41, 0x42, 0x43] = 2 := by
  decide

/-! ## C16 -/

/-- In a valid string every byte that declares a length begins a valid codepoint:
the other bytes are continuation bytes. -/
theorem starts_are_valid_from (s : List Byte) : ∀ (f p : Nat), s.length ≤ p + f →
    is_valid_utf8_loop s f p = true →
    ∀ q, p ≤ q → _get_codepoint_byte_count s q ≠ 0 → _is_valid_codepoint_at s q = true := by
  intro f
  induction f with
  | zero =>
    intro p hf _ q hq hk
    exact absurd (byte_count_eq_zero_of_ge s q (by omega)) hk
  | succ f ih =>
    intro p hf hv q hq hk
    by_cases hp : p < s.length
    · unfold is_valid_utf8_loop at hv
      rw [if_pos hp] at hv
      by_cases hva : _is_valid_codepoint_at s p = true
      · have hfit := valid_at_fits s p hva
        simp only [hva, Bool.not_true, Bool.false_eq_true, if_false] at hv
        by_cases hq2 : q < p + _get_codepoint_byte_count s p
        · by_cases hqp : q = p
          · rw [hqp]; exact hva
          · have hc := valid_at_cont s p hva (q - p) (by omega) (by omega)
            rw [show p + (q - p) = q by omega] at hc
            have hlt : q < s.length := by omega
            have hx := (lead_byte_exclusive (byteAt s q)).2.2.2 hc
            have hz : _get_codepoint_byte_count s q = 0 := by
              rw [byte_count_eq_of_byte s q hlt, byte_count_head]
              simp [hx.1, hx.2.1, hx.2.2.1, hx.2.2.2]
            exact absurd hz hk
        · exact ih _ (by omega) hv q (by omega) hk
      · simp [hva] at hv
    · exact absurd (byte_count_eq_zero_of_ge s q (by omega)) hk

theorem string_width_lockstep (wc : Nat → Int) (s : List Byte)
    (h : ∀ p, _get_codepoint_byte_count s p ≠ 0 → _is_valid_codepoint_at s p = true) :
    ∀ (f p w : Nat), w < 2 ^ 64 →
      string_width_loop wc s f p w
        = (w + ((utf8_to_codepoints_loop s f p []).map (char_width wc)).sum) % 2 ^ 64 := by
  intro f
  induction f with
  | zero =>
    intro p w hw
    simp only [string_width_loop, utf8_to_codepoints_loop, List.map_nil, List.sum_nil,
      Nat.add_zero]
    exact (Nat.mod_eq_of_lt hw).symm
  | succ f ih =>
    intro p w hw
    unfold string_width_loop utf8_to_codepoints_loop
    by_cases hp : p < s.length
    · rw [if_pos hp, if_pos hp]
      by_cases hk : _get_codepoint_byte_count s p = 0
      · have hnv : ¬ _is_valid_codepoint_at s p = true := by
          intro hva
          have := valid_at_fits s p hva
          omega
        simp only [hk, if_true]
        rw [if_neg hnv]
        exact ih (p + 1) w hw
      · have hva := h p hk
        simp only [hk, if_false]
        rw [if_pos hva, ih _ _ (Nat.mod_lt _ (by norm_num)), List.nil_append,
          utf8_to_codepoints_loop_acc s f _ [_get_codepoint_at s p],
          List.singleton_append, List.map_cons, List.sum_cons]
        rw [Nat.mod_add_mod, Nat.add_assoc]
    · rw [if_neg hp, if_neg hp]
      simp only [List.map_nil, List.sum_nil, Nat.add_zero]
      exact (Nat.mod_eq_of_lt hw).symm

/-- Where the code meets C16: for every display-width table and every string in
which each byte that declares a length begins a valid codepoint (stray continuation
and invalid bytes are allowed: they add no width and are stepped over one at a
time), and so for every valid string, `string_width(s)` is the sum modulo 2^64 of
`char_width` over `utf8_to_codepoints(s)`. -/
theorem string_width_is_sum_of_decoded (wc : Nat → Int) (s : List Byte) :
    ((∀ p, _get_codepoint_byte_count s p ≠ 0 → _is_valid_codepoint_at s p = true) →
      string_width wc s = ((utf8_to_codepoints s).map (char_width wc)).sum % 2 ^ 64) ∧
    (is_valid_utf8 s = true →
      string_width wc s = ((utf8_to_codepoints s).map (char_width wc)).sum % 2 ^ 64) := by
  constructor
  · intro h
    have := string_width_lockstep wc s h s.length 0 0 (by norm_num)
    rw [Nat.zero_add] at this
    exact this
  · intro hv
    have h := starts_are_valid_from s s.length 0 (by omega) hv
    have := string_width_lockstep wc s (fun p hk => h p (Nat.zero_le p) hk) s.length 0 0
      (by norm_num)
    rw [Nat.zero_add] at this
    exact this

/-- C16, the code at the failing input `E2 41 42 43`: for every display-width
table `string_width` adds the width of the replacement character, read for the
malformed unit, and the width of `C`, while the decoded codepoints are `A`, `B`,
`C`; with a table that gives every codepoint width 1 that is 2 against 3. -/
theorem string_width_at_malformed_lead :
    (∀ wc : Nat → Int,
      string_width wc [0xE2, 0x41, 0x42, 0x43]
        = ((0 + char_width wc REPLACEMENT_CHAR) % 2 ^ 64 + char_width wc 0x43) % 2 ^ 64 ∧
      (utf8_to_codepoints [0xE2, 0x41, 0x42, 0x43]).map (char_width wc)
        = [char_width wc 0x41, char_width wc 0x42, char_width wc 0x43]) ∧
    string_width (fun _ => 1) [0xE2, 0x41, 0x42, 0x43] = 2 ∧
    ((utf8_to_codepoints [0xE2, 0x41, 0x42, 0x43]).map (char_width (fun _ => 1))).sum % 2 ^ 64
      = 3 := by
  refine ⟨fun wc => ⟨rfl, rfl⟩, by decide, by decide⟩

/-! ## C11 -/

/-- When `n` is at least the number of bytes still ahead plus the characters counted
so far, the character walk runs to the end of the string. -/
theorem nth_loop_runs_out (wc : Nat → Int) (s : List Byte) (n : Nat) : ∀ (f p c : Nat),
    c + (s.length - p) ≤ n → _get_nth_character_byte_pos_loop wc s n f p c = s.length := by
  intro f
  induction f with
  | zero => intro p c _; rfl
  | succ f ih =>
    intro p c h
    unfold _get_nth_character_byte_pos_loop
    by_cases hp : p < s.length
    · rw [if_pos hp]
      by_cases hv : _is_valid_codepoint_at s p = true
      · have hfit := valid_at_fits s p hv
        rw [if_pos hv]
        simp only []
        split_ifs with h1 h2
        · omega
        · exact ih _ _ (by omega)
        · exact ih _ _ (by omega)
      · rw [if_neg hv]
        exact ih _ _ (by omega)
    · rw [if_neg hp]

theorem utf8_substring_unfold (wc : Nat → Int) (s : List Byte) (pos cnt : Nat) :
    utf8_substring wc s pos cnt
      = if _get_nth_character_byte_pos wc s pos 0 ≥ s.length then []
        else substr s (_get_nth_character_byte_pos wc s pos 0)
          (if cnt ≠ npos then
            _get_nth_character_byte_pos wc s cnt (_get_nth_character_byte_pos wc s pos 0)
              - _get_nth_character_byte_pos wc s pos 0
          else npos) := rfl

/-- C11: for a string of at most `npos` bytes, the character substring for any
`count` is a prefix of the one for `npos`; the two are equal once `count` is at
least the byte length of `s`; and the call without `count` is the call with `npos`. -/
theorem utf8_substring_count_truncates (wc : Nat → Int) (s : List Byte) (pos count : Nat)
    (hs : s.length ≤ npos) :
    utf8_substring wc s pos count <+: utf8_substring wc s pos npos ∧
    (count ≥ s.length → utf8_substring wc s pos count = utf8_substring wc s pos npos) ∧
    utf8_substring_from wc s pos = utf8_substring wc s pos npos := by
  refine ⟨?_, ?_, rfl⟩
  · rw [utf8_substring_unfold wc s pos count, utf8_substring_unfold wc s pos npos]
    generalize _get_nth_character_byte_pos wc s pos 0 = st
    by_cases h1 : st ≥ s.length
    · rw [if_pos h1, if_pos h1]
    · rw [if_neg h1, if_neg h1]
      simp only [ne_eq, not_true_eq_false, if_false]
      have hfull : substr s st npos = s.drop st := by
        unfold substr
        exact List.take_of_length_le (by rw [List.length_drop]; omega)
      rw [hfull]
      unfold substr
      exact List.take_prefix _ _
  · intro hc
    rw [utf8_substring_unfold wc s pos count, utf8_substring_unfold wc s pos npos]
    generalize _get_nth_character_byte_pos wc s pos 0 = st
    by_cases h1 : st ≥ s.length
    · rw [if_pos h1, if_pos h1]
    · rw [if_neg h1, if_neg h1]
      by_cases h2 : count = npos
      · rw [h2]
      · simp only [h2, ne_eq, not_false_eq_true, not_true_eq_false, if_true, if_false]
        have hend : _get_nth_character_byte_pos wc s count st = s.length :=
          nth_loop_runs_out wc s count s.length st 0 (by omega)
        rw [hend]
        unfold substr
        rw [List.take_of_length_le (by rw [List.length_drop]),
          List.take_of_length_le (by rw [List.length_drop]; omega)]

/-- C11 at `"ça"`: one character is a proper prefix, five characters are all. -/
theorem utf8_substring_count_truncates_witness :
    ([0xC3, 0xA7, 0x61] : List Byte).length ≤ npos ∧
    utf8_substring (fun _ => 1) [0xC3, 0xA7, 0x61] 0 1
      <+: utf8_substring (fun _ => 1) [0xC3, 0xA7, 0x61] 0 npos ∧
    utf8_substring (fun _ => 1) [0xC3, 0xA7, 0x61] 0 5
      = utf8_substring (fun _ => 1) [0xC3, 0xA7, 0x61] 0 npos :=
  ⟨by decide,
   (utf8_substring_count_truncates (fun _ => 1) [0xC3, 0xA7, 0x61] 0 1 (by decide)).1,
   (utf8_substring_count_truncates (fun _ => 1) [0xC3, 0xA7, 0x61] 0 5 (by decide)).2.1
     (by decide)⟩

/-! ## C17 -/

/-- The character walk in the suffix `s[k..]` is the walk in `s` from offset `k`,
provided the codepoint at `k` counts as a character in `s` as it does at offset 0
of the suffix. -/
theorem nth_loop_drop (wc : Nat → Int) (s : List Byte) (n k : Nat) (hk : k ≤ s.length) :
    ∀ (f p c : Nat),
      (p = 0 → k = 0 ∨ _is_valid_codepoint_at s k = false ∨
        _is_combining_char wc (_get_codepoint_at s k) = false) →
      _get_nth_character_byte_pos_loop wc (s.drop k) n f p c + k
        = _get_nth_character_byte_pos_loop wc s n f (k + p) c := by
  intro f
  induction f with
  | zero =>
    intro p c _
    simp only [_get_nth_character_byte_pos_loop, List.length_drop]
    omega
  | succ f ih =>
    intro p c h0
    unfold _get_nth_character_byte_pos_loop
    rw [valid_at_drop, byte_count_drop, codepoint_at_drop, List.length_drop]
    by_cases hp : k + p < s.length
    · have hp2 : p < s.length - k := by omega
      rw [if_pos hp, if_pos hp2]
      by_cases hv : _is_valid_codepoint_at s (k + p) = true
      · have hfit := valid_at_fits s (k + p) hv
        rw [if_pos hv, if_pos hv]
        simp only []
        have hcond : (p = 0 ∨ (!_is_combining_char wc (_get_codepoint_at s (k + p))) = true)
            ↔ (k + p = 0 ∨ (!_is_combining_char wc (_get_codepoint_at s (k + p))) = true) := by
          constructor
          · rintro (hp0 | hc)
            · subst hp0
              rcases h0 rfl with h | h | h
              · left; omega
              · rw [Nat.add_zero] at hv; rw [hv] at h; exact absurd h (by simp)
              · right; rw [Nat.add_zero, h]; rfl
            · exact Or.inr hc
          · rintro (hkp | hc)
            · left; omega
            · exact Or.inr hc
        by_cases hc : p = 0 ∨ (!_is_combining_char wc (_get_codepoint_at s (k + p))) = true
        · rw [if_pos hc, if_pos (hcond.mp hc)]
          by_cases hn : c + 1 > n
          · rw [if_pos hn, if_pos hn]; omega
          · rw [if_neg hn, if_neg hn, Nat.add_assoc]
            exact ih _ _ (fun h => by omega)
        · rw [if_neg hc, if_neg (fun h => hc (hcond.mpr h)), Nat.add_assoc]
          exact ih _ _ (fun h => by omega)
      · rw [if_neg hv, if_neg hv, Nat.add_assoc]
        exact ih _ _ (fun h => by omega)
    · have hp2 : ¬ p < s.length - k := by omega
      rw [if_neg hp, if_neg hp2]
      omega

/-- C17: for a string of at most `npos` bytes, the `count` characters of a
character substring are measured from the substring's own start. -/
theorem utf8_substring_count_from_own_start (wc : Nat → Int) (s : List Byte) (pos count : Nat)
    (hs : s.length ≤ npos) :
    utf8_substring wc s pos count
      = utf8_substring wc (utf8_substring wc s pos npos) 0 count := by
  have hspec := nth_loop_spec wc s pos s.length 0 0
  rw [← _get_nth_character_byte_pos.eq_1] at hspec
  rw [utf8_substring_unfold wc s pos count, utf8_substring_unfold wc s pos npos]
  generalize _get_nth_character_byte_pos wc s pos 0 = st at *
  by_cases h1 : st ≥ s.length
  · rw [if_pos h1, if_pos h1]
    rfl
  · rw [if_neg h1, if_neg h1]
    have hlt : st < s.length := by omega
    obtain ⟨_, hva, hcomb⟩ := hspec.2 hlt
    have hfull : substr s st (if npos ≠ npos then
        _get_nth_character_byte_pos wc s npos st - st else npos) = s.drop st := by
      simp only [ne_eq, not_true_eq_false, if_false]
      unfold substr
      exact List.take_of_length_le (by rw [List.length_drop]; omega)
    rw [hfull]
    have htlen : (s.drop st).length = s.length - st := List.length_drop st s
    have htpos : 0 < (s.drop st).length := by omega
    have hvt : _is_valid_codepoint_at (s.drop st) 0 = true := by
      rw [valid_at_drop, Nat.add_zero]; exact hva
    have hzero := nth_zero_at_char_start wc (s.drop st) 0 htpos hvt (Or.inl rfl)
    rw [utf8_substring_unfold wc (s.drop st) 0 count, hzero,
      if_neg (show ¬ 0 ≥ (s.drop st).length by omega)]
    by_cases h2 : count = npos
    · simp only [h2, ne_eq, not_true_eq_false, if_false, substr, List.drop_zero]
    · simp only [h2, ne_eq, not_false_eq_true, if_true, substr, List.drop_zero, Nat.sub_zero]
      have hshift := nth_loop_drop wc s count st (by omega) s.length 0 0
        (fun _ => by
          rcases hcomb with h | h
          · exact Or.inl h
          · exact Or.inr (Or.inr h))
      rw [Nat.add_zero] at hshift
      have hfuel : _get_nth_character_byte_pos wc (s.drop st) count 0
          = _get_nth_character_byte_pos_loop wc (s.drop st) count s.length 0 0 := by
        unfold _get_nth_character_byte_pos
        apply nth_loop_fuel_irrel <;> omega
      have hend : _get_nth_character_byte_pos wc s count st - st
          = _get_nth_character_byte_pos wc (s.drop st) count 0 := by
        rw [hfuel]
        unfold _get_nth_character_byte_pos
        omega
      rw [hend]

/-- C17 at `"Gr"`, `u`, U+0308, `"x"`, from character 1 for 2 characters. -/
theorem utf8_substring_count_from_own_start_witness :
    ([0x47, 0x72, 0x75, 0xCC, 0x88, 0x78] : List Byte).length ≤ npos ∧
    utf8_substring (fun c => if c = 0x308 then 0 else 1) [0x47, 0x72, 0x75, 0xCC, 0x88, 0x78] 1 2
      = utf8_substring (fun c => if c = 0x308 then 0 else 1)
          (utf8_substring (fun c => if c = 0x308 then 0 else 1)
            [0x47, 0x72, 0x75, 0xCC, 0x88, 0x78] 1 npos) 0 2 :=
  ⟨by decide,
   utf8_substring_count_from_own_start (fun c => if c = 0x308 then 0 else 1)
     [0x47, 0x72, 0x75, 0xCC, 0x88, 0x78] 1 2 (by decide)⟩

/-! ## C18 -/

theorem is_valid_utf8_append (x y : List Byte) (hx : is_valid_utf8 x = true) :
    is_valid_utf8 (x ++ y) = is_valid_utf8 y := by
  obtain ⟨us, hus, rfl⟩ := units_of_valid x.length x (Nat.le_refl _) hx
  clear hx
  induction us with
  | nil => rfl
  | cons u us ih =>
    have hu := well_formed_unit_at_head u (us.flatten ++ y) (hus u (List.mem_cons_self u us))
    rw [List.flatten_cons, List.append_assoc, is_valid_utf8_cons _ hu.1, hu.2, List.drop_left]
    exact ih (fun v hv => hus v (List.mem_cons_of_mem u hv))

/-- In a valid string, an offset whose prefix is valid holds a valid codepoint, and
the offset after that codepoint has a valid prefix again. -/
theorem boundary_step (s : List Byte) (hv : is_valid_utf8 s = true) (p : Nat)
    (hg : is_valid_utf8 (s.take p) = true) (hp : p < s.length) :
    _is_valid_codepoint_at s p = true ∧
    is_valid_utf8 (s.take (p + _get_codepoint_byte_count s p)) = true := by
  have hd : is_valid_utf8 (s.drop p) = true := by
    have := is_valid_utf8_append (s.take p) (s.drop p) hg
    rw [List.take_append_drop] at this
    rw [← this]; exact hv
  have hne : s.drop p ≠ [] := by
    intro h
    have := congrArg List.length h
    rw [List.length_drop, List.length_nil] at this
    omega
  have h0 := is_valid_utf8_head (s.drop p) hne hd
  have hva : _is_valid_codepoint_at s p = true := by
    rw [valid_at_drop, Nat.add_zero] at h0; exact h0
  refine ⟨hva, ?_⟩
  have hwf := head_is_well_formed_unit (s.drop p) h0
  rw [byte_count_drop, Nat.add_zero] at hwf
  have hunit := valid_of_units [(s.drop p).take (_get_codepoint_byte_count s p)]
    (fun u hu => by rw [List.mem_singleton.mp hu]; exact hwf)
  rw [List.flatten_cons, List.flatten_nil, List.append_nil] at hunit
  rw [List.take_add, is_valid_utf8_append _ _ hg]
  exact hunit

theorem nth_loop_boundary (wc : Nat → Int) (s : List Byte) (hv : is_valid_utf8 s = true)
    (n : Nat) : ∀ (f p c : Nat), is_valid_utf8 (s.take p) = true →
    is_valid_utf8 (s.take (_get_nth_character_byte_pos_loop wc s n f p c)) = true := by
  have hall : is_valid_utf8 (s.take s.length) = true := by rw [List.take_length]; exact hv
  intro f
  induction f with
  | zero => intro p c _; exact hall
  | succ f ih =>
    intro p c hg
    unfold _get_nth_character_byte_pos_loop
    by_cases hp : p < s.length
    · have hb := boundary_step s hv p hg hp
      rw [if_pos hp, if_pos hb.1]
      simp only []
      split_ifs
      · exact hg
      · exact ih _ _ hb.2
      · exact ih _ _ hb.2
    · rw [if_neg hp]; exact hall

theorem start_loop_boundary (s : List Byte) (hv : is_valid_utf8 s = true) (pos : Nat) :
    ∀ (f p c : Nat), is_valid_utf8 (s.take p) = true →
    is_valid_utf8 (s.take (utf8_cp_substring_start_loop s pos f p c)) = true := by
  intro f
  induction f with
  | zero => intro p c hg; exact hg
  | succ f ih =>
    intro p c hg
    rw [start_loop_succ]
    by_cases hcond : c < pos ∧ p < s.length
    · have hb := boundary_step s hv p hg hcond.2
      have hk : _get_codepoint_byte_count s p ≠ 0 := by
        have := valid_at_fits s p hb.1; omega
      rw [if_pos hcond, if_neg hk]
      exact ih _ _ hb.2
    · rw [if_neg hcond]; exact hg

theorem count_loop_boundary (s : List Byte) (hv : is_valid_utf8 s = true) (count : Nat) :
    ∀ (f p c : Nat), is_valid_utf8 (s.take p) = true →
    is_valid_utf8 (s.take (utf8_cp_substring_count_loop s count f p c)) = true := by
  intro f
  induction f with
  | zero => intro p c hg; exact hg
  | succ f ih =>
    intro p c hg
    rw [count_loop_succ]
    by_cases hcond : c < count ∧ p < s.length
    · have hb := boundary_step s hv p hg hcond.2
      have hk : _get_codepoint_byte_count s p ≠ 0 := by
        have := valid_at_fits s p hb.1; omega
      rw [if_pos hcond, if_neg hk]
      exact ih _ _ hb.2
    · rw [if_neg hcond]; exact hg

/-- The slice between two offsets with valid prefixes is valid. -/
theorem slice_between_boundaries (s : List Byte) (a b : Nat)
    (ha : is_valid_utf8 (s.take a) = true) (hb : is_valid_utf8 (s.take b) = true) :
    is_valid_utf8 ((s.drop a).take (b - a)) = true := by
  by_cases hle : b ≤ a
  · rw [Nat.sub_eq_zero_of_le hle, List.take_zero]; rfl
  · have hsplit : s.take b = s.take a ++ (s.drop a).take (b - a) := by
      rw [← List.take_add, show a + (b - a) = b by omega]
    rw [hsplit, is_valid_utf8_append _ _ ha] at hb
    exact hb

theorem substr_of_valid (s : List Byte) (hs : s.length ≤ npos) (hv : is_valid_utf8 s = true)
    (a n : Nat) (ha : is_valid_utf8 (s.take a) = true)
    (hn : n = npos ∨ ∃ e, n = e - a ∧ is_valid_utf8 (s.take e) = true) :
    is_valid_utf8 (substr s a n) = true := by
  unfold substr
  rcases hn with rfl | ⟨e, rfl, he⟩
  · have hall : is_valid_utf8 (s.take s.length) = true := by rw [List.take_length]; exact hv
    have := slice_between_boundaries s a s.length ha hall
    rw [List.take_of_length_le (by rw [List.length_drop])] at this
    rw [List.take_of_length_le (by rw [List.length_drop]; omega)]
    exact this
  · exact slice_between_boundaries s a e ha he

/-- C18: for a valid string of at most `npos` bytes, both the character substring
and the codepoint substring are valid UTF-8, for every `pos`, every `count` and
every display-width table. -/
theorem substrings_of_valid_are_valid (wc : Nat → Int) (s : List Byte) (pos count : Nat)
    (hs : s.length ≤ npos) (hv : is_valid_utf8 s = true) :
    is_valid_utf8 (utf8_substring wc s pos count) = true ∧
    is_valid_utf8 (utf8_cp_substring s pos count) = true := by
  have h0 : is_valid_utf8 (s.take 0) = true := by rw [List.take_zero]; rfl
  constructor
  · rw [utf8_substring_unfold]
    have hst := nth_loop_boundary wc s hv pos s.length 0 0 h0
    rw [← _get_nth_character_byte_pos.eq_1] at hst
    split_ifs with h1 h2
    · rfl
    · exact substr_of_valid s hs hv _ _ hst
        (Or.inr ⟨_, rfl, nth_loop_boundary wc s hv count s.length _ 0 hst⟩)
    · exact substr_of_valid s hs hv _ _ hst (Or.inl rfl)
  · have hst := start_loop_boundary s hv pos s.length 0 0 h0
    have hu : utf8_cp_substring s pos count
        = if utf8_cp_substring_start_loop s pos s.length 0 0 ≥ s.length then []
          else substr s (utf8_cp_substring_start_loop s pos s.length 0 0)
            (if count = npos then npos
             else utf8_cp_substring_count_loop s count s.length
                (utf8_cp_substring_start_loop s pos s.length 0 0) 0
                - utf8_cp_substring_start_loop s pos s.length 0 0) := rfl
    rw [hu]
    split_ifs with h1 h2
    · rfl
    · exact substr_of_valid s hs hv _ _ hst (Or.inl rfl)
    · exact substr_of_valid s hs hv _ _ hst
        (Or.inr ⟨_, rfl, count_loop_boundary s hv count s.length _ 0 hst⟩)

/-- C18 at `"Gr"`, `u`, U+0308, `"x"`: one character from character 2 keeps the
mark with its base, one codepoint from codepoint 3 is the mark alone. -/
theorem substrings_of_valid_are_valid_witness :
    ([0x47, 0x72, 0x75, 0xCC, 0x88, 0x78] : List Byte).length ≤ npos ∧
    is_valid_utf8 [0x47, 0x72, 0x75, 0xCC, 0x88, 0x78] = true ∧
    is_valid_utf8 (utf8_substring (fun c => if c = 0x308 then 0 else 1)
      [0x47, 0x72, 0x75, 0xCC, 0x88, 0x78] 2 1) = true ∧
    is_valid_utf8 (utf8_cp_substring [0x47, 0x72, 0x75, 0xCC, 0x88, 0x78] 3 1) = true :=
  ⟨by decide, by decide,
   substrings_of_valid_are_valid (fun c => if c = 0x308 then 0 else 1)
     [0x47, 0x72, 0x75, 0xCC, 0x88, 0x78] 2 1 (by decide) (by decide) |>.1,
   substrings_of_valid_are_valid (fun c => if c = 0x308 then 0 else 1)
     [0x47, 0x72, 0x75, 0xCC, 0x88, 0x78] 3 1 (by decide) (by decide) |>.2⟩

/-! ## C19 -/

theorem start_loop_eq_count_loop (s : List Byte) (n : Nat) : ∀ (f p c : Nat),
    utf8_cp_substring_start_loop s n f p c = utf8_cp_substring_count_loop s n f p c := by
  intro f
  induction f with
  | zero => intro p c; rfl
  | succ f ih =>
    intro p c
    rw [start_loop_succ, count_loop_succ, ih, ih]

/-- The start walk stops at the end of the string or after at least as many bytes
as the codepoints it still had to pass. -/
theorem start_loop_far (s : List Byte) (pos : Nat) : ∀ (f p c : Nat), s.length ≤ p + f →
    s.length ≤ utf8_cp_substring_start_loop s pos f p c ∨
    p + (pos - c) ≤ utf8_cp_substring_start_loop s pos f p c := by
  intro f
  induction f with
  | zero =>
    intro p c hf
    left
    simp only [utf8_cp_substring_start_loop]
    omega
  | succ f ih =>
    intro p c hf
    rw [start_loop_succ]
    by_cases hcond : c < pos ∧ p < s.length
    · rw [if_pos hcond]
      by_cases hk : _get_codepoint_byte_count s p = 0
      · rw [if_pos hk]
        rcases ih (p + 1) c (by omega) with h | h
        · exact Or.inl h
        · right; omega
      · rw [if_neg hk]
        rcases ih (p + _get_codepoint_byte_count s p) (c + 1) (by omega) with h | h
        · exact Or.inl h
        · right; omega
    · rw [if_neg hcond]
      by_cases hp : p < s.length
      · right; omega
      · left; omega

theorem start_loop_pos_zero (s : List Byte) (f p c : Nat) :
    utf8_cp_substring_start_loop s 0 f p c = p := by
  cases f with
  | zero => rfl
  | succ f => rw [start_loop_succ, if_neg (by omega)]

/-- C19: for a string of at most `npos` bytes, valid or not, the first `n`
codepoints followed by the substring from codepoint `n` on give the string back. -/
theorem cp_substring_split (s : List Byte) (n : Nat) (hs : s.length ≤ npos) :
    utf8_cp_substring s 0 n ++ utf8_cp_substring s n npos = s := by
  have hu : ∀ pos count, utf8_cp_substring s pos count
      = if utf8_cp_substring_start_loop s pos s.length 0 0 ≥ s.length then []
        else substr s (utf8_cp_substring_start_loop s pos s.length 0 0)
          (if count = npos then npos
           else utf8_cp_substring_count_loop s count s.length
              (utf8_cp_substring_start_loop s pos s.length 0 0) 0
              - utf8_cp_substring_start_loop s pos s.length 0 0) := fun _ _ => rfl
  rw [hu 0 n, hu n npos, start_loop_pos_zero, start_loop_eq_count_loop]
  simp only [if_true, Nat.sub_zero]
  by_cases hlen : 0 ≥ s.length
  · have hnil : s = [] := List.length_eq_zero.mp (by omega)
    subst hnil
    rfl
  · rw [if_neg hlen]
    unfold substr
    rw [List.drop_zero]
    by_cases hn : n = npos
    · have hfar := start_loop_far s n s.length 0 0 (by omega)
      rw [start_loop_eq_count_loop] at hfar
      have hge : utf8_cp_substring_count_loop s n s.length 0 0 ≥ s.length := by
        rcases hfar with h | h
        · exact h
        · omega
      rw [if_pos hn, if_pos hge, List.append_nil]
      exact List.take_of_length_le hs
    · rw [if_neg hn]
      by_cases hge : utf8_cp_substring_count_loop s n s.length 0 0 ≥ s.length
      · rw [if_pos hge, List.append_nil]
        exact List.take_of_length_le hge
      · have hrest : (s.drop (utf8_cp_substring_count_loop s n s.length 0 0)).take npos
            = s.drop (utf8_cp_substring_count_loop s n s.length 0 0) :=
          List.take_of_length_le (by rw [List.length_drop]; omega)
        rw [if_neg hge, hrest]
        exact List.take_append_drop _ _

/-- C19 at the invalid string `0x80 a 0xC3 A 0xFF`, split after one codepoint. -/
theorem cp_substring_split_witness :
    ([0x80, 0x61, 0xC3, 0x41, 0xFF] : List Byte).length ≤ npos ∧
    utf8_cp_substring [0x80, 0x61, 0xC3, 0x41, 0xFF] 0 1
      ++ utf8_cp_substring [0x80, 0x61, 0xC3, 0x41, 0xFF] 1 npos
      = [0x80, 0x61, 0xC3, 0x41, 0xFF] :=
  ⟨by decide, cp_substring_split [0x80, 0x61, 0xC3, 0x41, 0xFF] 1 (by decide)⟩

/-! ## C3, the amended statement -/

theorem stray_tail_length_skip : ∀ (skip : Nat) (l : List Byte),
    stray_tail_length 0 skip l = stray_tail_length 0 0 (l.drop skip) := by
  intro skip
  induction skip with
  | zero => intro l; rfl
  | succ k ih =>
    intro l
    cases l with
    | nil => rfl
    | cons b rest =>
      rw [List.drop_succ_cons, ← ih rest]
      rfl

theorem stray_tail_length_all_stray : ∀ (l : List Byte) (run : Nat),
    (∀ b ∈ l, declared_length b = 0) → stray_tail_length run 0 l = run + l.length := by
  intro l
  induction l with
  | nil => intro run _; rfl
  | cons b rest ih =>
    intro run h
    have hb : declared_length b = 0 := h b (List.mem_cons_self b rest)
    have hstep : stray_tail_length run 0 (b :: rest) = stray_tail_length (run + 1) 0 rest := by
      show (if declared_length b = 0 then stray_tail_length (run + 1) 0 rest
        else stray_tail_length 0 (declared_length b - 1) rest) = _
      rw [if_pos hb]
    rw [hstep, ih (run + 1) (fun x hx => h x (List.mem_cons_of_mem b hx)), List.length_cons]
    omega

theorem declared_length_at (s : List Byte) (p : Nat) (hp : p < s.length) :
    declared_length (byteAt s p) = _get_codepoint_byte_count s p := by
  rw [declared_length_eq, ← byte_count_eq_of_byte s p hp]

theorem drop_eq_byteAt_cons (s : List Byte) (p : Nat) (hp : p < s.length) :
    s.drop p = byteAt s p :: s.drop (p + 1) := by
  rw [byteAt_eq_getElem s p hp]
  exact List.drop_eq_getElem_cons hp

theorem drop_all_stray (s : List Byte) (q : Nat)
    (h : ∀ i, q ≤ i → i < s.length → _get_codepoint_byte_count s i = 0) :
    ∀ b ∈ s.drop q, declared_length b = 0 := by
  intro b hb
  obtain ⟨i, hi, hget⟩ := List.mem_iff_getElem.mp hb
  rw [List.length_drop] at hi
  rw [List.getElem_drop] at hget
  have hlt : q + i < s.length := by omega
  have hz := h (q + i) (by omega) hlt
  rw [← declared_length_at s _ hlt, byteAt_eq_getElem s _ hlt, hget] at hz
  exact hz

theorem start_loop_done (s : List Byte) (pos f p c : Nat) (h : ¬ c < pos) :
    utf8_cp_substring_start_loop s pos f p c = p := by
  cases f with
  | zero => rfl
  | succ f => rw [start_loop_succ, if_neg (fun hc => h hc.1)]

/-- While codepoints are still to be passed, the bytes left after the start walk
are the stray tail of the part of the string still ahead. -/
theorem stray_tail_after_start_loop (s : List Byte) (pos : Nat) : ∀ (f p c run : Nat),
    s.length ≤ p + f → c < pos → count_codepoints_loop s f p 0 = pos - c →
    s.length - utf8_cp_substring_start_loop s pos f p c
      = stray_tail_length run 0 (s.drop p) := by
  intro f
  induction f with
  | zero =>
    intro p c run _ hc hcnt
    simp only [count_codepoints_loop] at hcnt
    omega
  | succ f ih =>
    intro p c run hf hc hcnt
    rw [count_codepoints_loop_succ] at hcnt
    by_cases hp : p < s.length
    · rw [if_pos hp] at hcnt
      rw [start_loop_succ, if_pos ⟨hc, hp⟩, drop_eq_byteAt_cons s p hp]
      have hdl := declared_length_at s p hp
      by_cases hk : _get_codepoint_byte_count s p = 0
      · rw [if_pos hk] at hcnt
        rw [if_pos hk]
        have hstep : stray_tail_length run 0 (byteAt s p :: s.drop (p + 1))
            = stray_tail_length (run + 1) 0 (s.drop (p + 1)) := by
          show (if declared_length (byteAt s p) = 0 then _ else _) = _
          rw [if_pos (by rw [hdl]; exact hk)]
        rw [hstep]
        exact ih (p + 1) c (run + 1) (by omega) hc hcnt
      · rw [if_neg hk, count_codepoints_loop_acc] at hcnt
        rw [if_neg hk]
        have hstep : stray_tail_length run 0 (byteAt s p :: s.drop (p + 1))
            = stray_tail_length 0 0 (s.drop (p + _get_codepoint_byte_count s p)) := by
          show (if declared_length (byteAt s p) = 0 then _ else _) = _
          rw [if_neg (by rw [hdl]; exact hk), stray_tail_length_skip, List.drop_drop, hdl,
            show p + 1 + (_get_codepoint_byte_count s p - 1)
              = p + _get_codepoint_byte_count s p by omega]
        rw [hstep]
        by_cases hc1 : c + 1 < pos
        · exact ih _ (c + 1) 0 (by omega) hc1 (by omega)
        · rw [start_loop_done s pos f _ (c + 1) hc1]
          have hz : count_codepoints_loop s f (p + _get_codepoint_byte_count s p) 0 = 0 := by
            omega
          have hstray := no_start_of_count_zero s f _ (by omega) hz
          rw [stray_tail_length_all_stray _ 0 (drop_all_stray s _ hstray), List.length_drop]
          omega
    · rw [if_neg hp] at hcnt
      omega

/-- The bytes left after the start walk for `pos = count_codepoints(s)` are the
stray tail of the string. -/
theorem stray_tail_eq (s : List Byte) :
    s.length - utf8_cp_substring_start_loop s (count_codepoints s) s.length 0 0
      = stray_tail_length 0 0 s := by
  by_cases h0 : count_codepoints s = 0
  · rw [h0, start_loop_done s 0 _ 0 0 (by omega)]
    have hstray := no_start_of_count_zero s s.length 0 (by omega) h0
    have := stray_tail_length_all_stray _ 0 (drop_all_stray s 0 hstray)
    rw [List.drop_zero] at this
    rw [this]
    omega
  · have := stray_tail_after_start_loop s (count_codepoints s) s.length 0 0 0 (by omega)
      (by omega) rfl
    rw [List.drop_zero] at this
    exact this

theorem start_past_end (s : List Byte) (pos : Nat) : ∀ (f p c : Nat), s.length ≤ p + f →
    count_codepoints_loop s f p 0 < pos - c →
    s.length ≤ utf8_cp_substring_start_loop s pos f p c := by
  intro f
  induction f with
  | zero =>
    intro p c hf _
    simp only [utf8_cp_substring_start_loop]
    omega
  | succ f ih =>
    intro p c hf hcnt
    rw [start_loop_succ]
    rw [count_codepoints_loop_succ] at hcnt
    by_cases hp : p < s.length
    · rw [if_pos hp] at hcnt
      rw [if_pos ⟨by omega, hp⟩]
      by_cases hk : _get_codepoint_byte_count s p = 0
      · rw [if_pos hk] at hcnt
        rw [if_pos hk]
        exact ih _ _ (by omega) hcnt
      · rw [if_neg hk, count_codepoints_loop_acc] at hcnt
        rw [if_neg hk]
        exact ih _ _ (by omega) (by omega)
    · rw [if_neg (fun h => hp h.2)]
      omega

theorem count_loop_over_stray (s : List Byte) (count : Nat) : ∀ (f p c : Nat),
    s.length ≤ p + f → p ≤ s.length → c < count →
    (∀ i, p ≤ i → i < s.length → _get_codepoint_byte_count s i = 0) →
    utf8_cp_substring_count_loop s count f p c = s.length := by
  intro f
  induction f with
  | zero =>
    intro p c hf hp _ _
    simp only [utf8_cp_substring_count_loop]
    omega
  | succ f ih =>
    intro p c hf hp hc hstray
    rw [count_loop_succ]
    by_cases hlt : p < s.length
    · rw [if_pos ⟨hc, hlt⟩, if_pos (hstray p (Nat.le_refl p) hlt)]
      exact ih (p + 1) c (by omega) (by omega) hc (fun i hi => hstray i (by omega))
    · rw [if_neg (fun h => hlt h.2)]
      omega

theorem utf8_cp_substring_unfold (s : List Byte) (pos count : Nat) :
    utf8_cp_substring s pos count
      = if utf8_cp_substring_start_loop s pos s.length 0 0 ≥ s.length then []
        else substr s (utf8_cp_substring_start_loop s pos s.length 0 0)
          (if count = npos then npos
           else utf8_cp_substring_count_loop s count s.length
              (utf8_cp_substring_start_loop s pos s.length 0 0) 0
              - utf8_cp_substring_start_loop s pos s.length 0 0) := rfl

/-- C3 amended: let `pos >= count_codepoints(s)`.  If `pos > count_codepoints(s)`
or `count = 0`, `utf8_cp_substring(s, pos, count)` is empty, for every `s`.  If
`pos = count_codepoints(s)` and `count != 0`, it is exactly the stray tail of `s`:
the bytes at the end of `s` that the scan stepped over one at a time after its last
codepoint.  In every case no byte of the result can start a codepoint, and the
stray tail, and so the result, is empty when `s` is valid UTF-8. -/
theorem utf8_cp_substring_clamp (s : List Byte) (pos count : Nat)
    (h : pos ≥ count_codepoints s) :
    (pos > count_codepoints s ∨ count = 0 → utf8_cp_substring s pos count = []) ∧
    (pos = count_codepoints s → count ≠ 0 → s.length ≤ npos →
      utf8_cp_substring s pos count = s.drop (s.length - stray_tail_length 0 0 s)) ∧
    (∀ b ∈ utf8_cp_substring s pos count, _get_codepoint_byte_count [b] 0 = 0) ∧
    (is_valid_utf8 s = true →
      stray_tail_length 0 0 s = 0 ∧ utf8_cp_substring s pos count = []) := by
  have hstray := no_start_after_clamp s pos s.length 0 0 (by omega) (by simpa using h)
  refine ⟨?_, ?_, ?_, ?_⟩
  · rintro (hgt | hc0)
    · have := start_past_end s pos s.length 0 0 (by omega) (by simpa using hgt)
      rw [utf8_cp_substring_unfold, if_pos this]
    · rw [utf8_cp_substring_unfold]
      by_cases h1 : utf8_cp_substring_start_loop s pos s.length 0 0 ≥ s.length
      · rw [if_pos h1]
      · rw [if_neg h1, hc0, if_neg npos_ne_zero]
        obtain ⟨f, hf⟩ : ∃ f, s.length = f + 1 := ⟨s.length - 1, by omega⟩
        rw [hf, count_loop_succ, if_neg (by omega), Nat.sub_self]
        rfl
  · intro hpos hc hs
    have htail := stray_tail_eq s
    rw [← hpos] at htail
    rw [utf8_cp_substring_unfold, ← htail]
    by_cases h1 : utf8_cp_substring_start_loop s pos s.length 0 0 ≥ s.length
    · rw [if_pos h1, Nat.sub_eq_zero_of_le h1, Nat.sub_zero, List.drop_length]
    · rw [if_neg h1, show s.length - (s.length - utf8_cp_substring_start_loop s pos s.length 0 0)
        = utf8_cp_substring_start_loop s pos s.length 0 0 by omega]
      unfold substr
      by_cases hn : count = npos
      · rw [if_pos hn]
        exact List.take_of_length_le (by rw [List.length_drop]; omega)
      · rw [if_neg hn, count_loop_over_stray s count s.length _ 0 (by omega) (by omega)
          (by omega) hstray]
        exact List.take_of_length_le (by rw [List.length_drop])
  · intro b hb
    rw [utf8_cp_substring_unfold] at hb
    by_cases h1 : utf8_cp_substring_start_loop s pos s.length 0 0 ≥ s.length
    · rw [if_pos h1] at hb
      exact absurd hb (List.not_mem_nil b)
    · rw [if_neg h1] at hb
      unfold substr at hb
      have hd := drop_all_stray s _ hstray b (List.mem_of_mem_take hb)
      rw [declared_length_eq] at hd
      exact hd
  · intro hv
    have hend := start_at_end_of_valid s pos s.length 0 0 (by omega) hv (by simpa using h)
    have hend2 := start_at_end_of_valid s (count_codepoints s) s.length 0 0 (by omega) hv
      (by simp [count_codepoints])
    refine ⟨?_, ?_⟩
    · rw [← stray_tail_eq s]
      omega
    · rw [utf8_cp_substring_unfold, if_pos hend]

/-- C3 amended, at `a 0x80 0xBF`: past the one codepoint the result is empty, at
codepoint 1 it is the two stray bytes, and for zero codepoints it is empty again. -/
theorem utf8_cp_substring_clamp_witness :
    (2 ≥ count_codepoints [0x61, 0x80, 0xBF] ∧ utf8_cp_substring [0x61, 0x80, 0xBF] 2 5 = []) ∧
    (1 ≥ count_codepoints [0x61, 0x80, 0xBF] ∧
      utf8_cp_substring [0x61, 0x80, 0xBF] 1 5 = [0x80, 0xBF]) ∧
    utf8_cp_substring [0x61, 0x80, 0xBF] 1 0 = [] :=
  ⟨⟨by decide, (utf8_cp_substring_clamp [0x61, 0x80, 0xBF] 2 5 (by decide)).1
      (Or.inl (by decide))⟩,
   ⟨by decide, ((utf8_cp_substring_clamp [0x61, 0x80, 0xBF] 1 5 (by decide)).2.1
      (by decide) (by decide) (by decide)).trans (by decide)⟩,
   (utf8_cp_substring_clamp [0x61, 0x80, 0xBF] 1 0 (by decide)).1 (Or.inr rfl)⟩

end Utf8
